import Mathlib

/-!
Verification development for the amplenote-gtd plugin.

The repository is a JavaScript note-organization plugin.  Its persisted
state lives entirely in each note's tag list; all logic treated here is
tag manipulation and markdown rendering.  We embed the relevant source
functions shallowly: strings stay strings, the host's tag index
(`app.filterNotes`) becomes a pure query over a list of note records,
async host mutations become explicit state passing, and the JavaScript
recursions that consume an unbounded number of characters or descend an
unbounded number of tree levels are given an explicit fuel argument so
that every definition is executable and kernel-reducible.

The repository holds several near-duplicate revisions of the plugin.
Definitions from `src/gtdv3.js` (first revision) live in namespace `G3`;
definitions from `src/unnamed/part_000` (the lint-cleaned revision) live
in namespace `P0`.  Functions whose text is identical in both revisions
are defined once at top level.
-/

/-- JavaScript `\s` (whitespace class), restricted to the ASCII whitespace
characters that can actually occur in tag and note content here. -/
def jsWsChar (c : Char) : Bool :=
  c = ' ' || c = '\t' || c = '\n' || c = '\r' || c = '\x0b' || c = '\x0c'

/-- Embedding of JavaScript `String.prototype.startsWith`. -/
def sStarts (pre s : String) : Bool :=
  pre.data.isPrefixOf s.data

/-- One splitting step for `jsSplit`: characters of the current field are
collected until the separator is hit. -/
def splitCharL (sep : Char) : List Char → List (List Char)
  | [] => [[]]
  | c :: cs =>
    if c = sep then [] :: splitCharL sep cs
    else
      match splitCharL sep cs with
      | [] => [[c]]
      | f :: fs => (c :: f) :: fs

/-- Embedding of JavaScript `String.prototype.split` with a one-character
separator (the only form the plugin uses: `tag.split("/")`,
`query.split(",")`). -/
def jsSplit (sep : Char) (s : String) : List String :=
  (splitCharL sep s.data).map String.mk

/-- `parts[i]` of a JavaScript split result, with the empty string standing
for `undefined` (the plugin only ever feeds the result into string
templates or truthiness checks, where this is observationally faithful). -/
def jsIndex (l : List String) (i : Nat) : String :=
  l.getD i ""

/-- Decimal digits of `n`, little-endian, by explicit fuel (so the kernel
can evaluate it); `decDigitsF n n` is exact because `n / 10 < n`. -/
def decDigitsF : Nat → Nat → List Nat
  | 0, _ => []
  | fuel + 1, n => if n = 0 then [] else n % 10 :: decDigitsF fuel (n / 10)

/-- Character for one decimal digit. -/
def decChar (d : Nat) : Char :=
  Char.ofNat (48 + d)

/-- Embedding of JavaScript number-to-string conversion for the natural
numbers the plugin interpolates (`${counter}`). -/
def decimalStr (n : Nat) : String :=
  String.mk (((if n = 0 then [0] else decDigitsF n n).reverse).map decChar)

/-- A note as this plugin sees it: the host identifier, title, tag list and
ISO-8601 creation timestamp.  Tags behave as a set; the add operation below
keeps the list duplicate-free. -/
structure NoteRec where
  uuid : String
  name : String
  tags : List String
  created : String
deriving DecidableEq, Repr

/-- The host note store: the universe of notes `app.filterNotes` searches.
Mutations are modeled by returning an updated list. -/
abbrev AppState := List NoteRec

/-- Amplenote tag matching: a query tag matches a note tag that is equal to
it or lies below it in the `/`-hierarchy (the plugin relies on this when it
queries the bare tag `r`). -/
def matchTag (noteTag query : String) : Bool :=
  noteTag == query || sStarts (query ++ "/") noteTag

/-- Whether a note satisfies one (non-negated) tag token of a query. -/
def noteHasTag (n : NoteRec) (q : String) : Bool :=
  n.tags.any (fun t => matchTag t q)

/-- Whether a note satisfies one comma-separated token of an
`app.filterNotes` query: `^`-prefixed tokens are exclusions. -/
def noteSatisfiesTok (n : NoteRec) (tok : String) : Bool :=
  match tok.data with
  | '^' :: rest => !(noteHasTag n (String.mk rest))
  | _ => noteHasTag n tok

/-- Embedding of the host primitive `app.filterNotes({tag: q})`: notes
satisfying every comma-separated token, in store order. -/
def filterNotesQ (st : AppState) (q : String) : List NoteRec :=
  st.filter (fun n => (jsSplit ',' q).all (fun tok => noteSatisfiesTok n tok))

/-- The note's domain tags (`d/work`, `d/home`, ...). -/
def domainTagsOf (n : NoteRec) : List String :=
  n.tags.filter (fun t => sStarts "d/" t)

/-- `getFilteredNotes` (identical in both revisions): the plugin's filtered
query layer.  Appends `^archive,^exclude` to every query and, when a domain
filter is supplied, post-filters to notes with no domain tag or at least
one domain tag in the filter. -/
def getFilteredNotes (st : AppState) (baseTag : String) (domainTags : List String) :
    List NoteRec :=
  let query := if baseTag ≠ "" then baseTag ++ ",^archive,^exclude" else "^archive,^exclude"
  let notes := filterNotesQ st query
  if domainTags.length > 0 then
    notes.filter (fun n =>
      let nd := domainTagsOf n
      nd.length = 0 || domainTags.any (fun dt => nd.contains dt))
  else notes

example : sStarts "no" "note-id/x" = true := by decide
example : jsSplit '/' "r/parent/abc" = ["r", "parent", "abc"] := by decide
example : jsSplit ',' "a,^archive,^exclude" = ["a", "^archive", "^exclude"] := by decide
example : decimalStr 105 = "105" := by decide
example : decimalStr 0 = "0" := by decide

/-- Character class of a footnote label in the regexes
`/\[\^([^\]\s]+?)\]/` and `/^\[\^([^\]\s]+?)\]:/`: anything except `]` and
whitespace. -/
def labChar (c : Char) : Bool :=
  !(c = ']' || jsWsChar c)

/-- Attempt to read `label]` starting right after `[^`.  Returns the label
and the remainder after `]`, or `none` when the run of label characters is
empty or ends at whitespace or the end of input — exactly the positions
where the lazy regex `\[\^([^\]\s]+?)\]` fails to match. -/
def scanLabel (cs : List Char) : Option (String × List Char) :=
  match cs.dropWhile labChar with
  | ']' :: rest =>
    if (cs.takeWhile labChar).isEmpty then none
    else some (String.mk (cs.takeWhile labChar), rest)
  | _ => none

/-- The label map built by `uniquifyFootnotes`: original label to the
counter value it was assigned (the replacement text is `fn<value>`). -/
abbrev FMap := List (String × Nat)

/-- Replacement text `fn<k>` as characters. -/
def fnChars (k : Nat) : List Char :=
  'f' :: 'n' :: (decimalStr k).data

/-- First replacement pass of `uniquifyFootnotes`: the global substitution
of `/\[\^([^\]\s]+?)\]/g`, assigning `fn<counter++>` to each new label.
Structural on `fuel`; each step consumes at least one character, so
`fuel = cs.length` is exact (`pass1`). -/
def pass1F : Nat → List Char → FMap → Nat → List Char × FMap × Nat
  | 0, cs, m, k => (cs, m, k)
  | _ + 1, [], m, k => ([], m, k)
  | fuel + 1, '[' :: '^' :: cs, m, k =>
    match scanLabel cs with
    | some (lab, rest) =>
      match m.find? (fun p => p.1 == lab) with
      | some p =>
        let r := pass1F fuel rest m k
        ('[' :: '^' :: fnChars p.2 ++ ']' :: r.1, r.2)
      | none =>
        let r := pass1F fuel rest (m ++ [(lab, k)]) (k + 1)
        ('[' :: '^' :: fnChars k ++ ']' :: r.1, r.2)
    | none =>
      let r := pass1F fuel ('^' :: cs) m k
      ('[' :: r.1, r.2)
  | fuel + 1, c :: cs, m, k =>
    let r := pass1F fuel cs m k
    (c :: r.1, r.2)

/-- Second replacement pass of `uniquifyFootnotes`: the line-anchored
substitution of `/^\[\^([^\]\s]+?)\]:/gm` over the output of the first
pass, rewriting a definition marker only when its (already rewritten)
label is a key of the label map, and leaving it untouched otherwise.
`atStart` tracks whether the current position is at the start of a line. -/
def pass2F : Nat → Bool → List Char → FMap → List Char
  | 0, _, cs, _ => cs
  | _ + 1, _, [], _ => []
  | fuel + 1, true, '[' :: '^' :: cs, m =>
    match scanLabel cs with
    | some (lab, ':' :: rest) =>
      match m.find? (fun p => p.1 == lab) with
      | some p => '[' :: '^' :: fnChars p.2 ++ ']' :: ':' :: pass2F fuel false rest m
      | none => '[' :: '^' :: lab.data ++ ']' :: ':' :: pass2F fuel false rest m
    | _ =>
      '[' :: pass2F fuel false ('^' :: cs) m
  | fuel + 1, _, c :: cs, m =>
    c :: pass2F fuel (c = '\n') cs m

/-- First pass at exact fuel, returning rewritten text, label map and the
final counter. -/
def pass1 (cs : List Char) (m : FMap) (k : Nat) : List Char × FMap × Nat :=
  pass1F cs.length cs m k

/-- Second pass at exact fuel. -/
def pass2 (cs : List Char) (m : FMap) : List Char :=
  pass2F cs.length true cs m

/-- `uniquifyFootnotes` (identical in both revisions): rewrites every
`[^label]` occurrence to `[^fn<n>]` with a fresh `n` per distinct label
drawn from `counterStart`, then reprocesses line-leading `[^label]:`
markers against the label map, and returns the rewritten content together
with the next counter value. -/
def uniquifyFootnotes (content : String) (counterStart : Nat) : String × Nat :=
  let r := pass1 content.data [] counterStart
  (String.mk (pass2 r.1 r.2.1), r.2.2)

/-- The label map assigned by a `uniquifyFootnotes` call. -/
def uniqMap (content : String) (counterStart : Nat) : FMap :=
  (pass1 content.data [] counterStart).2.1

/-- The labels of all `[^label]` occurrences of a content string, in match
order (the same matching discipline as the first replacement pass). -/
def refLabelsF : Nat → List Char → List String
  | 0, _ => []
  | _ + 1, [] => []
  | fuel + 1, '[' :: '^' :: cs =>
    match scanLabel cs with
    | some (lab, rest) => lab :: refLabelsF fuel rest
    | none => refLabelsF fuel ('^' :: cs)
  | fuel + 1, _ :: cs => refLabelsF fuel cs

/-- Labels of all `[^label]` occurrences of a content string. -/
def refLabelsOf (content : String) : List String :=
  refLabelsF content.data.length content.data

/-- The sequential counter threading the plugin performs when it
interpolates several source fragments into one render pass (the task loops
of `renderProject`, `updateRelatedTasksSection` and
`Refresh Deadline Tasks`): each fragment is rewritten starting from the
counter the previous fragment ended with. -/
def uniquifyThread : List String → Nat → List String × Nat
  | [], c => ([], c)
  | raw :: rs, c =>
    let u := uniquifyFootnotes raw c
    let r := uniquifyThread rs u.2
    (u.1 :: r.1, r.2)

example :
    uniquifyFootnotes "task one [^1] and [^note]\n[^1]: first\n[^note]: second" 1 =
      ("task one [^fn1] and [^fn2]\n[^fn1]: first\n[^fn2]: second", 3) := by decide

example :
    uniquifyThread ["a[^1]\n[^1]: fact one", "b[^1]\n[^1]: fact two"] 1 =
      (["a[^fn1]\n[^fn1]: fact one", "b[^fn2]\n[^fn2]: fact two"], 3) := by decide

example : uniquifyFootnotes "[^x]: orphan definition" 1 =
    ("[^fn1]: orphan definition", 2) := by decide

example : refLabelsOf "a[^1] b[^2] [^1]" = ["1", "2", "1"] := by decide

/-- `note.addTag(tag)`: the tag set gains the tag (tags are a set in the
host, so re-adding is a no-op). -/
def addTagL (tags : List String) (tag : String) : List String :=
  if tags.contains tag then tags else tags ++ [tag]

/-- `note.removeTag(tag)`: the tag is removed from the tag set. -/
def removeTagL (tags : List String) (tag : String) : List String :=
  tags.filter (fun t => t ≠ tag)

/-- Add a tag to the note with the given uuid in the store. -/
def addTagS (st : AppState) (uuid tag : String) : AppState :=
  st.map (fun n => if n.uuid = uuid then { n with tags := addTagL n.tags tag } else n)

/-- Remove a tag from the note with the given uuid in the store. -/
def removeTagS (st : AppState) (uuid tag : String) : AppState :=
  st.map (fun n => if n.uuid = uuid then { n with tags := removeTagL n.tags tag } else n)

/-- `app.notes.find(uuid)`: the first store entry with this uuid. -/
def findNote (st : AppState) (uuid : String) : Option NoteRec :=
  st.find? (fun n => n.uuid = uuid)

/-- The regex `/^(\d{4})-(\d{2})-(\d{2})T(\d{2}):(\d{2}):(\d{2})/` of
`generateUniqueNoteIdTag`: reads `YYYYMMDDHHMMSS` off an ISO-8601
creation timestamp, failing on any other shape. -/
def parseCreated (created : String) : Option String :=
  match created.data with
  | y1 :: y2 :: y3 :: y4 :: '-' :: mo1 :: mo2 :: '-' :: d1 :: d2 :: 'T' ::
      h1 :: h2 :: ':' :: mi1 :: mi2 :: ':' :: s1 :: s2 :: _ =>
    if ([y1, y2, y3, y4, mo1, mo2, d1, d2, h1, h2, mi1, mi2, s1, s2]).all Char.isDigit then
      some (String.mk [y1, y2, y3, y4, mo1, mo2, d1, d2, h1, h2, mi1, mi2, s1, s2])
    else none
  | _ => none

/-- The candidate tag tried at loop iteration `k` of
`generateUniqueNoteIdTag`: `note-id/<base>` first, then
`note-id/<base>-1`, `note-id/<base>-2`, ... -/
def candAux (base : String) : Nat → String
  | 0 => "note-id/" ++ base
  | k + 1 => "note-id/" ++ base ++ "-" ++ decimalStr (k + 1)

/-- The collision test of `generateUniqueNoteIdTag`: some note other than
the one being tagged matches the candidate in the live tag index. -/
def candOwned (st : AppState) (selfUuid cand : String) : Bool :=
  (filterNotesQ st cand).any (fun n => n.uuid ≠ selfUuid)

/-- The uniqueness loop of `generateUniqueNoteIdTag`, with explicit fuel:
keeps incrementing the suffix while the candidate is owned by another
note. -/
def genLoopF (st : AppState) (selfUuid base : String) : Nat → Nat → Option String
  | 0, _ => none
  | fuel + 1, k =>
    if candOwned st selfUuid (candAux base k) then genLoopF st selfUuid base fuel (k + 1)
    else some (candAux base k)

/-- Total number of tags across the store: an upper bound on how many
distinct candidate tags can collide, hence sufficient loop fuel. -/
def tagBudget (st : AppState) : Nat :=
  (st.flatMap (fun n => n.tags)).length

/-- `generateUniqueNoteIdTag` (identical in both revisions): derives
`YYYYMMDDHHMMSS` from `note.created` and runs the uniqueness loop.
Fails (`none`) on an unparseable timestamp, like the source's thrown
`Invalid note.created format`. -/
def generateUniqueNoteIdTag (st : AppState) (note : NoteRec) : Option String :=
  match parseCreated note.created with
  | none => none
  | some base => genLoopF st note.uuid base (tagBudget st + 1) 0

/-- `getNoteIdTag` (identical in both revisions): returns the note's
existing `note-id/*` tag, or mints one via `generateUniqueNoteIdTag` and
persists it.  Returns the tag and the (possibly updated) store; `none`
models the source's thrown errors (note not found, bad timestamp). -/
def getNoteIdTag (st : AppState) (uuid : String) : Option (String × AppState) :=
  match findNote st uuid with
  | none => none
  | some note =>
    match note.tags.find? (fun t => sStarts "note-id/" t) with
    | some existing => some (existing, st)
    | none =>
      match generateUniqueNoteIdTag st note with
      | none => none
      | some tag => some (tag, addTagS st uuid tag)

example : parseCreated "2025-07-26T14:15:07Z" = some "20250726141507" := by decide
example : candAux "20250726141507" 2 = "note-id/20250726141507-2" := by decide

/-- `normalizeNoteHandle` attaches the note's URL; only the URL string
matters downstream, so we keep the record and compute the URL where the
source interpolates it. -/
def noteUrl (uuid : String) : String :=
  "https://www.amplenote.com/notes/" ++ uuid

/-- Outcome of a relationship operation: success, the user-visible alert
paths (type mismatch, project-to-project rejection, lookup failure), or a
thrown error. -/
inductive RelOutcome
  | ok
  | typeMismatch
  | invalidRel
  | notFound
  | err
deriving DecidableEq, Repr

/-- `getParentNotes` (identical in both revisions): resolves each
`r/parent/<id>` tag of the note through the live tag index
(`app.filterNotes({tag: note-id/<id>})`), keeping the first match. -/
def getParentNotes (st : AppState) (uuid : String) : Option (List NoteRec) :=
  match findNote st uuid with
  | none => none
  | some note =>
    let parentIds := (note.tags.filter (fun t => sStarts "r/parent/" t)).map
      (fun t => jsIndex (jsSplit '/' t) 2)
    some (parentIds.filterMap (fun pid => (filterNotesQ st ("note-id/" ++ pid)).head?))

/-- `getChildNotes` (identical in both revisions): resolves each
`r/child/<id>` tag through the live tag index. -/
def getChildNotes (st : AppState) (uuid : String) : Option (List NoteRec) :=
  match findNote st uuid with
  | none => none
  | some note =>
    let childIds := (note.tags.filter (fun t => sStarts "r/child/" t)).map
      (fun t => jsIndex (jsSplit '/' t) 2)
    some (childIds.filterMap (fun cid => (filterNotesQ st ("note-id/" ++ cid)).head?))

namespace G3

/-- `getNoteType` from `src/gtdv3.js`: the first tag matching any of the
shapes `list/*`, `project/*`, `reference/*` or a bare type name decides the
type; `reference/<subtype>` collapses to the subtype for the four known
subtypes.  This revision returns `project/*` tags uncollapsed. -/
def getNoteType (n : NoteRec) : Option String :=
  match n.tags.find? (fun t =>
      sStarts "list/" t || sStarts "project/" t || sStarts "reference/" t ||
      ["person", "software", "vendor", "horizon"].contains t) with
  | none => none
  | some tag =>
    if sStarts "reference/" tag then
      let sub := jsIndex (jsSplit '/' tag) 1
      if ["people", "software", "vendor", "horizon"].contains sub then some sub else some tag
    else some tag

/-- `setParentChildRelationship` from `src/gtdv3.js`: mints stable ids for
both notes as needed, then tags the child with `r/parent/<parentId>` and
the parent with `r/child/<childId>`.  This revision performs no type
check. -/
def setParentChildRelationship (st : AppState) (childUUID parentUUID : String) :
    AppState × RelOutcome :=
  match findNote st childUUID, findNote st parentUUID with
  | none, _ => (st, .notFound)
  | _, none => (st, .notFound)
  | some _, some _ =>
    match getNoteIdTag st childUUID with
    | none => (st, .err)
    | some (childIdTag, st1) =>
      let childId := jsIndex (jsSplit '/' childIdTag) 1
      match getNoteIdTag st1 parentUUID with
      | none => (st1, .err)
      | some (parentIdTag, st2) =>
        let parentId := jsIndex (jsSplit '/' parentIdTag) 1
        let st3 := addTagS st2 childUUID ("r/parent/" ++ parentId)
        let st4 := addTagS st3 parentUUID ("r/child/" ++ childId)
        (st4, .ok)

/-- `addRelationshipByType` from `src/gtdv3.js`: rejects two project-like
notes, adds a one-directional tag when exactly one side is project-like,
and reciprocal tags otherwise.  `none` models the TypeError the source
raises when a note has no classifiable type (`null.startsWith`). -/
def addRelationshipByType (st : AppState) (noteUuid relatedUuid : String) :
    Option (AppState × RelOutcome) :=
  match findNote st noteUuid, findNote st relatedUuid with
  | some note, some related =>
    match getNoteType note, getNoteType related with
    | some nt, some rt =>
      if sStarts "project/" nt && sStarts "project/" rt then some (st, .invalidRel)
      else
        match getNoteIdTag st noteUuid with
        | none => some (st, .err)
        | some (noteIdTag, st1) =>
          match getNoteIdTag st1 relatedUuid with
          | none => some (st1, .err)
          | some (relatedIdTag, st2) =>
            let noteId := jsIndex (jsSplit '/' noteIdTag) 1
            let relatedId := jsIndex (jsSplit '/' relatedIdTag) 1
            if sStarts "project/" nt then
              some (addTagS st2 noteUuid ("r/" ++ rt ++ "/" ++ relatedId), .ok)
            else if sStarts "project/" rt then
              some (addTagS st2 relatedUuid ("r/" ++ nt ++ "/" ++ noteId), .ok)
            else
              some (addTagS (addTagS st2 noteUuid ("r/" ++ rt ++ "/" ++ relatedId))
                relatedUuid ("r/" ++ nt ++ "/" ++ noteId), .ok)
    | _, _ => none
  | _, _ => none

/-- `removeRelationship` from `src/gtdv3.js`: for a `parent` relation
removes `r/parent/<targetId>` from the note and `r/child/<noteId>` from
the target; for a `child` relation the mirror image; otherwise removes the
typed tags from both sides (a `null` type prints as the string `null` in
the template, as in JavaScript). -/
def removeRelationship (st : AppState) (noteUuid relType targetUuid : String) :
    Option AppState :=
  match findNote st targetUuid with
  | none => some st
  | some target =>
    match getNoteIdTag st noteUuid with
    | none => none
    | some (noteIdTag, st1) =>
      match getNoteIdTag st1 targetUuid with
      | none => none
      | some (targetIdTag, st2) =>
        let noteId := jsIndex (jsSplit '/' noteIdTag) 1
        let targetId := jsIndex (jsSplit '/' targetIdTag) 1
        if relType = "parent" then
          some (removeTagS (removeTagS st2 noteUuid ("r/parent/" ++ targetId))
            targetUuid ("r/child/" ++ noteId))
        else if relType = "child" then
          some (removeTagS (removeTagS st2 noteUuid ("r/child/" ++ targetId))
            targetUuid ("r/parent/" ++ noteId))
        else
          match findNote st2 noteUuid with
          | none => none
          | some note =>
            some (removeTagS (removeTagS st2 noteUuid
                ("r/" ++ (getNoteType target).getD "null" ++ "/" ++ targetId))
              targetUuid ("r/" ++ (getNoteType note).getD "null" ++ "/" ++ noteId))

end G3

namespace P0

/-- The post-processing `getNoteType` of `src/unnamed/part_000` applies to
the tag found by its priority scan: `project/*` collapses to `project`,
`reference/<subtype>` collapses to the subtype for the four known
subtypes, anything else is returned raw. -/
def collapseTag (tag : String) : String :=
  if sStarts "project/" tag then "project"
  else if sStarts "reference/" tag then
    if ["people", "software", "vendor", "horizon"].contains (jsIndex (jsSplit '/' tag) 1) then
      jsIndex (jsSplit '/' tag) 1
    else tag
  else tag

/-- The tag shapes `getNoteType` of `src/unnamed/part_000` scans for. -/
def typeShape (t : String) : Bool :=
  sStarts "list/" t || sStarts "project/" t || sStarts "reference/" t ||
    ["people", "software", "vendor", "horizon"].contains t

/-- `getNoteType` from `src/unnamed/part_000`: the first tag in the note's
tag list matching any shape, post-processed by `collapseTag`. -/
def getNoteType (n : NoteRec) : Option String :=
  (n.tags.find? typeShape).map collapseTag

/-- `setParentChildRelationship` from `src/unnamed/part_000`: rejects the
pair with an alert when the two notes' types differ (before any mutation),
otherwise mints stable ids and writes the complementary pair of tags. -/
def setParentChildRelationship (st : AppState) (childUUID parentUUID : String) :
    AppState × RelOutcome :=
  match findNote st childUUID, findNote st parentUUID with
  | none, _ => (st, .notFound)
  | _, none => (st, .notFound)
  | some child, some parent =>
    if getNoteType child ≠ getNoteType parent then (st, .typeMismatch)
    else
      match getNoteIdTag st childUUID with
      | none => (st, .err)
      | some (childIdTag, st1) =>
        let childId := jsIndex (jsSplit '/' childIdTag) 1
        match getNoteIdTag st1 parentUUID with
        | none => (st1, .err)
        | some (parentIdTag, st2) =>
          let parentId := jsIndex (jsSplit '/' parentIdTag) 1
          let st3 := addTagS st2 childUUID ("r/parent/" ++ parentId)
          let st4 := addTagS st3 parentUUID ("r/child/" ++ childId)
          (st4, .ok)

/-- `addRelationshipByType` from `src/unnamed/part_000`: textually the same
logic as the `gtdv3.js` revision, but it classifies through this
revision's `getNoteType`, which collapses `project/*` to `project` — a
value the `startsWith('project/')` guards never accept. -/
def addRelationshipByType (st : AppState) (noteUuid relatedUuid : String) :
    Option (AppState × RelOutcome) :=
  match findNote st noteUuid, findNote st relatedUuid with
  | some note, some related =>
    match getNoteType note, getNoteType related with
    | some nt, some rt =>
      if sStarts "project/" nt && sStarts "project/" rt then some (st, .invalidRel)
      else
        match getNoteIdTag st noteUuid with
        | none => some (st, .err)
        | some (noteIdTag, st1) =>
          match getNoteIdTag st1 relatedUuid with
          | none => some (st1, .err)
          | some (relatedIdTag, st2) =>
            let noteId := jsIndex (jsSplit '/' noteIdTag) 1
            let relatedId := jsIndex (jsSplit '/' relatedIdTag) 1
            if sStarts "project/" nt then
              some (addTagS st2 noteUuid ("r/" ++ rt ++ "/" ++ relatedId), .ok)
            else if sStarts "project/" rt then
              some (addTagS st2 relatedUuid ("r/" ++ nt ++ "/" ++ noteId), .ok)
            else
              some (addTagS (addTagS st2 noteUuid ("r/" ++ rt ++ "/" ++ relatedId))
                relatedUuid ("r/" ++ nt ++ "/" ++ noteId), .ok)
    | _, _ => none
  | _, _ => none

end P0

/-- One insertion step of the stable sort modelling JavaScript
`Array.prototype.sort` (ES2019 requires a stable sort): place `a` before the
first element it compares at-or-below. -/
def jsInsert {α : Type} (le : α → α → Bool) (a : α) : List α → List α
  | [] => [a]
  | b :: l => if le a b then a :: b :: l else b :: jsInsert le a l

/-- Stable sort by a boolean comparator, modelling `Array.prototype.sort`
with the source's `localeCompare` comparators. -/
def jsSort {α : Type} (le : α → α → Bool) : List α → List α
  | [] => []
  | a :: l => jsInsert le a (jsSort le l)

/-- `"    ".repeat(indentLevel)`: four spaces per nesting level. -/
def indentStr (n : Nat) : String :=
  String.mk (List.replicate (4 * n) ' ')

/-- Strict lexicographic comparison of character lists by code point, the
order `localeCompare` induces on the plugin's ASCII tag and title data. -/
def strLtB : List Char → List Char → Bool
  | _, [] => false
  | [], _ :: _ => true
  | a :: as, b :: bs => a.toNat < b.toNat || (a.toNat == b.toNat && strLtB as bs)

/-- `a.localeCompare(b) <= 0` as a boolean comparator. -/
def strLeB (a b : String) : Bool :=
  !(strLtB b.data a.data)

/-- Title comparison used by every `.sort((a, b) => a.name.localeCompare(b.name))`
call. -/
def nameLe (a b : NoteRec) : Bool :=
  strLeB a.name b.name

/-- The `getNoteId` helper of both list builders: the value segment of the
note's `note-id/*` tag, with an empty segment flowing to `none` exactly as
the source's falsy checks treat it. -/
def noteIdOf (n : NoteRec) : Option String :=
  match n.tags.find? (fun t => sStarts "note-id/" t) with
  | none => none
  | some t =>
    let s := jsIndex (jsSplit '/' t) 1
    if s = "" then none else some s

/-- Join the rendered chunks the way the source accumulates them
(`md += chunk + "\n"`) and apply the final `md.trim()`. -/
def mdOfChunks (ls : List String) : String :=
  (String.join (ls.map (fun l => l ++ "\n"))).trim

namespace P0

/-- `buildNestedNoteList` from `src/unnamed/part_000`, as the list of
`md +=` lines it produces.  The visited set is threaded through the sibling
loop (each rendered note adds its own identifier) and passed as a fresh
clone into each child descent, so descendants of one branch never block
another branch; a note already in the set is skipped.  The JavaScript
recursion is bounded by the visited set; here a fuel argument decreases on
every step and `none` is the (unreachable, see `bnlF_total_of_fuel`) fuel
exhaustion. -/
def bnlF (env : AppState) (incl : Bool) (fmt : NoteRec → String) :
    Nat → List NoteRec → Nat → List String → Option (List String)
  | 0, _, _, _ => none
  | _ + 1, [], _, _ => some []
  | fuel + 1, n :: rest, ind, visited =>
    if visited.contains n.uuid then bnlF env incl fmt fuel rest ind visited
    else
      let visited' := n.uuid :: visited
      let line := indentStr ind ++ "- " ++ fmt n
      if incl then
        match noteIdOf n with
        | none =>
          match bnlF env incl fmt fuel rest ind visited' with
          | none => none
          | some out => some (line :: out)
        | some nid =>
          let children := jsSort nameLe (getFilteredNotes env ("r/parent/" ++ nid) [])
          match bnlF env incl fmt fuel children (ind + 1) visited' with
          | none => none
          | some childOut =>
            match bnlF env incl fmt fuel rest ind visited' with
            | none => none
            | some out => some (line :: (childOut ++ out))
      else
        match bnlF env incl fmt fuel rest ind visited' with
        | none => none
        | some out => some (line :: out)

/-- The default bullet label `[name](url)`. -/
def plainLabel (n : NoteRec) : String :=
  "[" ++ n.name ++ "](" ++ noteUrl n.uuid ++ ")"

/-- English month abbreviation for a two-digit month, as produced by the
source's `Intl.DateTimeFormat('en-US', {year: 'numeric', month: 'short'})`. -/
def monthAbbrev (mo : String) : Option String :=
  if mo = "01" then some "Jan" else if mo = "02" then some "Feb"
  else if mo = "03" then some "Mar" else if mo = "04" then some "Apr"
  else if mo = "05" then some "May" else if mo = "06" then some "Jun"
  else if mo = "07" then some "Jul" else if mo = "08" then some "Aug"
  else if mo = "09" then some "Sep" else if mo = "10" then some "Oct"
  else if mo = "11" then some "Nov" else if mo = "12" then some "Dec"
  else none

/-- `formatProjectLabel` from `src/unnamed/part_000`: the plain label,
suffixed with `(Mon YYYY)` when the note carries a six-digit
`project/completed/<YYYYMM>` tag, and with the raw tag value otherwise.
(For a six-digit value whose month is not 01–12 the host formatter would
raise; we fall back to the raw value there, a case no claim touches.) -/
def formatProjectLabel (n : NoteRec) : String :=
  let label := "[" ++ n.name ++ "](" ++ noteUrl n.uuid ++ ")"
  match n.tags.find? (fun t => sStarts "project/completed/" t) with
  | none => label
  | some t =>
    let dateTag := jsIndex (jsSplit '/' t) 2
    if dateTag = "" then label
    else if dateTag.data.length = 6 && dateTag.data.all Char.isDigit then
      let year := String.mk (dateTag.data.take 4)
      let mo := String.mk (dateTag.data.drop 4)
      match monthAbbrev mo with
      | some m => label ++ " (" ++ m ++ " " ++ year ++ ")"
      | none => label ++ " (" ++ dateTag ++ ")"
    else label ++ " (" ++ dateTag ++ ")"

/-- The completion-date sort key `getDate` of the flat branch of
`buildNestedProjectList` in `src/unnamed/part_000`:
`tags.find(t => t.startsWith('project/completed/'))?.split('/')[2] || ''`. -/
def dateKey (n : NoteRec) : String :=
  match n.tags.find? (fun t => sStarts "project/completed/" t) with
  | none => ""
  | some t => jsIndex (jsSplit '/' t) 2

/-- The sort comparator of the flat branch of `buildNestedProjectList` in
`src/unnamed/part_000`: completion date descending when
`sortCompletedByDate` is set (its default), title order otherwise. -/
def flatLe (sortCompletedByDate : Bool) (a b : NoteRec) : Bool :=
  if sortCompletedByDate then strLeB (dateKey b) (dateKey a) else nameLe a b

/-- The root list of the flat branch of `buildNestedProjectList` in
`src/unnamed/part_000`: project-tagged notes, minus declared children
unless `ignoreParentFiltering`, sorted by `flatLe`. -/
def flatRoots (baseNotes : List NoteRec) (ignoreParentFiltering sortCompletedByDate : Bool) :
    List NoteRec :=
  jsSort (flatLe sortCompletedByDate)
    ((baseNotes.filter (fun n => n.tags.any (fun t => sStarts "project/" t))).filter
      (fun n => ignoreParentFiltering || !(n.tags.any (fun t => sStarts "r/parent/" t))))

/-- The flat branch of `buildNestedProjectList` from `src/unnamed/part_000`
as its list of rendered lines. -/
def buildFlat (env : AppState) (baseNotes : List NoteRec)
    (incl ignoreParentFiltering sortCompletedByDate : Bool) (fuel : Nat) :
    Option (List String) :=
  bnlF env incl formatProjectLabel fuel
    (flatRoots baseNotes ignoreParentFiltering sortCompletedByDate) 0 []


/-- The full-mode status catalog (`projectStatuses`) of
`buildNestedProjectList` in `src/unnamed/part_000`: tag and heading label
in render order. -/
def statusCatalog : List (String × String) :=
  [("project/focus", "Focus Projects"), ("project/active", "Active Projects"),
   ("project/tracking", "Tracking Projects"), ("project/on-hold", "On Hold Projects"),
   ("project/future", "Future Projects"), ("project/someday", "Someday Projects"),
   ("project/completed", "Completed Projects"), ("project/canceled", "Canceled Projects")]

/-- `getParentIds` of full mode in `src/unnamed/part_000`:
`tags.filter(t => t.startsWith('r/parent/')).map(t => t.split('/')[2])`. -/
def getParentIds (n : NoteRec) : List String :=
  (n.tags.filter (fun t => sStarts "r/parent/" t)).map (fun t => jsIndex (jsSplit '/' t) 2)

/-- `getByNoteId` of full mode in `src/unnamed/part_000`: the `byNoteId`
cache is seeded with every base note carrying a `note-id/*` tag (later
notes overwrite earlier ones) and falls back to the live
`note-id/<id>` query, whose first result (or null) is memoised; queries
are deterministic during a render, so the memoisation is invisible to
results and the resolution is the pure function below. -/
def getByNoteId (env : AppState) (baseNotes : List NoteRec) (noteId : String) :
    Option NoteRec :=
  if noteId = "" then none
  else
    match baseNotes.reverse.find? (fun n => noteIdOf n == some noteId) with
    | some n => some n
    | none => (getFilteredNotes env ("note-id/" ++ noteId) []).head?

/-- `getTopAncestor` of full mode in `src/unnamed/part_000`: an unguarded
`while (true)` walk to the first note with no resolvable parent.  The JS
loop has no visited set, so on cyclic `r/parent` tags it never returns;
here the fuel decreases per step and `none` (exhaustion at every fuel) is
the embedding of that divergence. -/
def getTopAncestorF (env : AppState) (baseNotes : List NoteRec) :
    Nat → NoteRec → Option NoteRec
  | 0, _ => none
  | fuel + 1, current =>
    match getParentIds current with
    | [] => some current
    | pid :: _ =>
      match getByNoteId env baseNotes pid with
      | none => some current
      | some p => getTopAncestorF env baseNotes fuel p

/-- One `Map.set` step of `secondLevelRoots`: replace in place when the
uuid is already a key, append otherwise (insertion order preserved). -/
def mapSet (m : List NoteRec) (n : NoteRec) : List NoteRec :=
  if m.any (fun x => x.uuid == n.uuid) then
    m.map (fun x => if x.uuid == n.uuid then n else x)
  else m ++ [n]

/-- The `secondLevelRoots` promotion of full mode in
`src/unnamed/part_000`: every parentless base note in store order, then
the top ancestor of every parented base note; `none` when an ancestor
walk exhausts its fuel (the `while (true)` divergence). -/
def secondLevelRoots (env : AppState) (baseNotes : List NoteRec) (fuel : Nat) :
    Option (List NoteRec) :=
  let m1 := baseNotes.foldl
    (fun m n => if n.tags.any (fun t => sStarts "r/parent/" t) then m else mapSet m n) []
  baseNotes.foldl
    (fun acc n =>
      match acc with
      | none => none
      | some m =>
        if n.tags.any (fun t => sStarts "r/parent/" t) then
          match getTopAncestorF env baseNotes fuel n with
          | none => none
          | some top => some (mapSet m top)
        else some m)
    (some m1)

/-- The first `project/*` tag of a note: the status tag the bucketing loop
of full mode reads. -/
def statusTagOf (n : NoteRec) : Option String :=
  n.tags.find? (fun t => sStarts "project/" t)

/-- The catalog bucket a status tag lands in: the first catalog entry the
tag equals or extends (`statusTag === prefix || statusTag.startsWith(prefix + '/')`,
with `break` on the first match). -/
def bucketOf (tag : String) : Option String :=
  (statusCatalog.find? (fun p => tag == p.1 || sStarts (p.1 ++ "/") tag)).map
    (fun p => p.1)

/-- The promoted roots landing in one status bucket, in promotion order. -/
def bucketRoots (slr : List NoteRec) (tag : String) : List NoteRec :=
  slr.filter (fun n =>
    match statusTagOf n with
    | none => false
    | some st => bucketOf st == some tag)

/-- The per-status root list of full mode in `src/unnamed/part_000`:
bucket roots sorted by completion date descending for the completed
bucket under `sortCompletedByDate` and by title otherwise. -/
def fullRoots (slr : List NoteRec) (tag : String) (scbd : Bool) : List NoteRec :=
  if tag = "project/completed" && scbd then
    jsSort (fun a b => strLeB (dateKey b) (dateKey a)) (bucketRoots slr tag)
  else jsSort nameLe (bucketRoots slr tag)

/-- The status loop of full mode in `src/unnamed/part_000`: under each
fixed heading either the `*No matching projects*` placeholder or the
nested render of the sorted bucket at depth 1, a blank line closing each
status block. -/
def buildFullLoop (env : AppState) (incl scbd : Bool) (fuel : Nat)
    (slr : List NoteRec) : List (String × String) → Option (List String)
  | [] => some []
  | (tag, label) :: restSt =>
    if (fullRoots slr tag scbd).isEmpty then
      match buildFullLoop env incl scbd fuel slr restSt with
      | none => none
      | some out => some (("- " ++ label) :: "    - *No matching projects*" :: "" :: out)
    else
      match bnlF env incl formatProjectLabel fuel (fullRoots slr tag scbd) 1 [] with
      | none => none
      | some cs =>
        match buildFullLoop env incl scbd fuel slr restSt with
        | none => none
        | some out => some (("- " ++ label) :: (cs ++ ([""] ++ out)))

/-- `buildNestedProjectList` in `src/unnamed/part_000`, full mode: root
promotion through `getTopAncestor`, then the eight-status render. -/
def buildFull (env : AppState) (baseNotes : List NoteRec)
    (incl scbd : Bool) (fuel : Nat) : Option (List String) :=
  match secondLevelRoots env baseNotes fuel with
  | none => none
  | some slr => buildFullLoop env incl scbd fuel slr statusCatalog


end P0

/-- The host-derived inputs of the `gtdv3.js` renderer: the note store,
plus the per-note results of the two helper queries of `renderProject`'s
weekly-review branch (`getLatestDailyJotBacklink` and
`collectTasksFromNoteAndBacklinks`, both pure compositions of host
queries). -/
structure Renv where
  notes : AppState
  lastJot : String → Option NoteRec
  rawTasks : String → List String

namespace G3

/-- The weekly-review metadata block of `renderProject` in `src/gtdv3.js`:
a last-activity line, then the note's task contents rewritten through
`uniquifyFootnotes` with the render-global counter threaded through. -/
def weeklyChunks (env : Renv) (uuid : String) (ind counter : Nat) : List String × Nat :=
  let actLine := match env.lastJot uuid with
    | some j => indentStr ind ++ "    - Last Activity: [" ++ j.name ++ "](" ++ noteUrl j.uuid ++ ")"
    | none => indentStr ind ++ "    - Last Activity: _none_"
  let raws := env.rawTasks uuid
  if raws.isEmpty then ([actLine, indentStr ind ++ "    - Tasks: _none_", ""], counter)
  else
    let u := uniquifyThread raws counter
    (actLine :: (indentStr ind ++ "    - Tasks:") ::
      (u.1.map (fun s => indentStr ind ++ "        - " ++ s) ++ [""]), u.2)

/-- `renderProject` / `renderChildren` of `buildNestedProjectList` in
`src/gtdv3.js`, over a work list of sibling notes: each note renders its
bullet (and weekly-review block), then its project-tagged children
(fetched by `r/parent/<id>`, name-sorted) one level deeper under a fresh
clone of the visited set extended with the note itself.  Returns the
rendered lines and the final footnote counter; fuel decreases every step
and exhaustion (`none`) is unreachable at sufficient fuel
(`renderListF_total_of_fuel`). -/
def renderListF (env : Renv) (format : String) (incl : Bool) :
    Nat → List NoteRec → Nat → List String → Nat → Option (List String × Nat)
  | 0, _, _, _, _ => none
  | _ + 1, [], _, _, counter => some ([], counter)
  | fuel + 1, note :: rest, ind, visited, counter =>
    if visited.contains note.uuid then renderListF env format incl fuel rest ind visited counter
    else
      let visited' := note.uuid :: visited
      let line := indentStr ind ++ "- [" ++ note.name ++ "](" ++ noteUrl note.uuid ++ ")"
      let wk := if format = "weeklyReview" then weeklyChunks env note.uuid ind counter
        else ([], counter)
      let childRes : Option (List String × Nat) :=
        if incl then
          match noteIdOf note with
          | none => some ([], wk.2)
          | some pid =>
            let children := jsSort nameLe ((getFilteredNotes env.notes ("r/parent/" ++ pid) []).filter
              (fun c => c.tags.any (fun t => sStarts "project/" t)))
            renderListF env format incl fuel children (ind + 1) visited' wk.2
        else some ([], wk.2)
      match childRes with
      | none => none
      | some (childOut, c2) =>
        match renderListF env format incl fuel rest ind visited' c2 with
        | none => none
        | some (out, c3) => some ((line :: (wk.1 ++ childOut)) ++ out, c3)

/-- The root loops of `buildNestedProjectList` in `src/gtdv3.js`: each root
is rendered by `renderProject` with a fresh (default) visited set, the
footnote counter alone carrying over. -/
def renderRootsF (env : Renv) (format : String) (incl : Bool) :
    Nat → List NoteRec → Nat → Nat → Option (List String × Nat)
  | _, [], _, counter => some ([], counter)
  | fuel, p :: rest, ind, counter =>
    match renderListF env format incl fuel [p] ind [] counter with
    | none => none
    | some (cs, c1) =>
      match renderRootsF env format incl fuel rest ind c1 with
      | none => none
      | some (csR, c2) => some (cs ++ csR, c2)

/-- The fixed status catalog of `buildNestedProjectList` (same in both
revisions): tag and heading label, in render order. -/
def statusCatalog : List (String × String) :=
  [("project/focus", "Focus Projects"), ("project/active", "Active Projects"),
   ("project/tracking", "Tracking Projects"), ("project/on-hold", "On Hold Projects"),
   ("project/future", "Future Projects"), ("project/someday", "Someday Projects"),
   ("project/completed", "Completed Projects"), ("project/canceled", "Canceled Projects")]

/-- The completion-date sort key of the completed bucket in `src/gtdv3.js`:
`tags.find(t => t.startsWith("project/completed/"))?.split("/")[2] || ""`. -/
def dateKey (n : NoteRec) : String :=
  match n.tags.find? (fun t => sStarts "project/completed/" t) with
  | none => ""
  | some t => jsIndex (jsSplit '/' t) 2

/-- The per-status root list of full mode in `src/gtdv3.js`: notes whose
tag set contains the status tag exactly, minus declared children, sorted
by completion date descending for the completed bucket when
`sortCompletedByDate` is set and by title otherwise. -/
def fullRoots (baseNotes : List NoteRec) (statusTag : String) (sortCompletedByDate : Bool) :
    List NoteRec :=
  let statusProjects := baseNotes.filter (fun n => n.tags.contains statusTag)
  let roots := statusProjects.filter (fun n => !(n.tags.any (fun t => sStarts "r/parent/" t)))
  if statusTag = "project/completed" && sortCompletedByDate then
    jsSort (fun a b => strLeB (dateKey b) (dateKey a)) roots
  else jsSort nameLe roots

/-- Full mode of `buildNestedProjectList` in `src/gtdv3.js`, over a work
list of statuses: under each fixed heading either the placeholder
`*No matching projects*` or the rendered roots, a blank line closing each
status block. -/
def buildFullF (env : Renv) (baseNotes : List NoteRec) (format : String)
    (incl sortCompletedByDate : Bool) (fuel : Nat) :
    List (String × String) → Nat → Option (List String)
  | [], _ => some []
  | (tag, label) :: restSt, counter =>
    let roots := fullRoots baseNotes tag sortCompletedByDate
    if roots.isEmpty then
      match buildFullF env baseNotes format incl sortCompletedByDate fuel restSt counter with
      | none => none
      | some out => some (("- " ++ label) :: "    - *No matching projects*" :: "" :: out)
    else
      match renderRootsF env format incl fuel roots 1 counter with
      | none => none
      | some (cs, c1) =>
        match buildFullF env baseNotes format incl sortCompletedByDate fuel restSt c1 with
        | none => none
        | some out => some (("- " ++ label) :: (cs ++ ([""] ++ out)))

/-- `buildNestedProjectList` in `src/gtdv3.js`, full mode: the eight-status
render starting from footnote counter 1. -/
def buildFull (env : Renv) (baseNotes : List NoteRec) (format : String)
    (incl sortCompletedByDate : Bool) (fuel : Nat) : Option (List String) :=
  buildFullF env baseNotes format incl sortCompletedByDate fuel statusCatalog 1

/-- The flat-mode root list of `buildNestedProjectList` in `src/gtdv3.js`:
notes with no `r/parent/*` tag, always sorted by title. -/
def flatRoots (baseNotes : List NoteRec) : List NoteRec :=
  jsSort nameLe (baseNotes.filter (fun n => !(n.tags.any (fun t => sStarts "r/parent/" t))))

/-- `buildNestedProjectList` in `src/gtdv3.js`, flat mode. -/
def buildFlat (env : Renv) (baseNotes : List NoteRec) (format : String)
    (incl : Bool) (fuel : Nat) : Option (List String) :=
  (renderRootsF env format incl fuel (flatRoots baseNotes) 0 1).map (fun r => r.1)

end G3

section JsSortLemmas

theorem mem_jsInsert {α : Type} {le : α → α → Bool} {a x : α} {l : List α} :
    x ∈ jsInsert le a l ↔ x = a ∨ x ∈ l := by
  induction l with
  | nil => simp [jsInsert]
  | cons b l ih =>
    simp only [jsInsert]
    split
    · simp [List.mem_cons]
    · simp only [List.mem_cons, ih]
      tauto

theorem length_jsInsert {α : Type} (le : α → α → Bool) (a : α) (l : List α) :
    (jsInsert le a l).length = l.length + 1 := by
  induction l with
  | nil => rfl
  | cons b l ih =>
    simp only [jsInsert]
    split
    · simp
    · simp [ih]

theorem mem_jsSort {α : Type} {le : α → α → Bool} {x : α} {l : List α} :
    x ∈ jsSort le l ↔ x ∈ l := by
  induction l with
  | nil => simp [jsSort]
  | cons a l ih =>
    simp only [jsSort, mem_jsInsert, List.mem_cons, ih]

theorem length_jsSort {α : Type} (le : α → α → Bool) (l : List α) :
    (jsSort le l).length = l.length := by
  induction l with
  | nil => rfl
  | cons a l ih =>
    simp only [jsSort, length_jsInsert, ih, List.length_cons]

theorem pairwise_jsInsert {α : Type} {le : α → α → Bool}
    (htot : ∀ a b, le a b = true ∨ le b a = true)
    (htrans : ∀ a b c, le a b = true → le b c = true → le a c = true)
    (a : α) {l : List α} (hs : l.Pairwise (fun x y => le x y = true)) :
    (jsInsert le a l).Pairwise (fun x y => le x y = true) := by
  induction l with
  | nil => simp [jsInsert]
  | cons b l ih =>
    rcases List.pairwise_cons.1 hs with ⟨hb, hl⟩
    simp only [jsInsert]
    split
    · next hab =>
      refine List.pairwise_cons.2 ⟨?_, hs⟩
      intro x hx
      rcases List.mem_cons.1 hx with hx | hx
      · subst hx; exact hab
      · exact htrans a b x hab (hb x hx)
    · next hab =>
      refine List.pairwise_cons.2 ⟨?_, ih hl⟩
      intro x hx
      rcases mem_jsInsert.1 hx with hx | hx
      · subst hx
        rcases htot x b with h | h
        · exact absurd h hab
        · exact h
      · exact hb x hx

theorem pairwise_jsSort {α : Type} {le : α → α → Bool}
    (htot : ∀ a b, le a b = true ∨ le b a = true)
    (htrans : ∀ a b c, le a b = true → le b c = true → le a c = true)
    (l : List α) : (jsSort le l).Pairwise (fun x y => le x y = true) := by
  induction l with
  | nil => simp [jsSort]
  | cons a l ih => exact pairwise_jsInsert htot htrans a ih

end JsSortLemmas

section Helpers

theorem isPrefixOf_iff_exists {p s : List Char} :
    p.isPrefixOf s = true ↔ ∃ t, s = p ++ t := by
  induction p generalizing s with
  | nil => simp [List.isPrefixOf]
  | cons a as ih =>
    cases s with
    | nil => simp [List.isPrefixOf]
    | cons b bs =>
      simp only [List.isPrefixOf, Bool.and_eq_true, beq_iff_eq, ih, List.cons_append,
        List.cons.injEq]
      constructor
      · rintro ⟨rfl, t, rfl⟩; exact ⟨t, rfl, rfl⟩
      · rintro ⟨t, rfl, rfl⟩; exact ⟨rfl, t, rfl⟩

theorem sStarts_iff {p s : String} :
    sStarts p s = true ↔ ∃ t, s.data = p.data ++ t := by
  rw [sStarts, isPrefixOf_iff_exists]

theorem sStarts_append (p t : String) : sStarts p (p ++ t) = true := by
  simp [sStarts, isPrefixOf_iff_exists, String.data_append]

theorem splitCharL_ne_nil (sep : Char) (cs : List Char) : splitCharL sep cs ≠ [] := by
  cases cs with
  | nil => simp [splitCharL]
  | cons c cs =>
    by_cases h : c = sep
    · simp [splitCharL, h]
    · simp only [splitCharL, if_neg h]
      match hm : splitCharL sep cs with
      | [] => simp
      | f :: fs => simp

theorem splitCharL_append_sep (sep : Char) (xs ys : List Char) :
    splitCharL sep (xs ++ sep :: ys) = splitCharL sep xs ++ splitCharL sep ys := by
  induction xs with
  | nil => simp [splitCharL]
  | cons c cs ih =>
    by_cases h : c = sep
    · simp [splitCharL, h, ih]
    · simp only [List.cons_append, splitCharL, if_neg h]
      match hm : splitCharL sep cs with
      | [] => exact absurd hm (splitCharL_ne_nil sep cs)
      | f :: fs => simp only [List.append_eq]; rw [ih, hm]; simp

theorem splitCharL_no_sep {sep : Char} {xs : List Char} (h : ∀ c ∈ xs, c ≠ sep) :
    splitCharL sep xs = [xs] := by
  induction xs with
  | nil => rfl
  | cons c cs ih =>
    have hc : c ≠ sep := h c (by simp)
    simp only [splitCharL, if_neg hc, ih (fun x hx => h x (by simp [hx]))]

theorem jsSplit_append_sep (sep : Char) (a b : String) :
    jsSplit sep (a ++ String.mk [sep] ++ b) = jsSplit sep a ++ jsSplit sep b := by
  simp [jsSplit, String.data_append, splitCharL_append_sep]

theorem jsSplit_no_sep {sep : Char} {s : String} (h : ∀ c ∈ s.data, c ≠ sep) :
    jsSplit sep s = [s] := by
  simp [jsSplit, splitCharL_no_sep h]

theorem mk_data (s : String) : String.mk s.data = s := rfl

/-- Splitting `pre/mid` on `/` when neither part contains a slash. -/
theorem jsSplit_slash_two {a b : String} (ha : ∀ c ∈ a.data, c ≠ '/')
    (hb : ∀ c ∈ b.data, c ≠ '/') :
    jsSplit '/' (a ++ "/" ++ b) = [a, b] := by
  have : (("/" : String)) = String.mk ['/'] := rfl
  rw [this, jsSplit_append_sep, jsSplit_no_sep ha, jsSplit_no_sep hb]
  rfl

end Helpers

section C8

theorem jsSplit_query (baseTag : String) :
    jsSplit ',' (baseTag ++ ",^archive,^exclude") =
      jsSplit ',' baseTag ++ ["^archive", "^exclude"] := by
  have h : (baseTag ++ ",^archive,^exclude").data =
      baseTag.data ++ ',' :: ("^archive,^exclude").data := String.data_append _ _
  unfold jsSplit
  rw [h, splitCharL_append_sep, List.map_append]
  have h2 : (splitCharL ',' ("^archive,^exclude").data).map String.mk =
      ["^archive", "^exclude"] := by decide
  rw [h2]

theorem tok_archive (n : NoteRec) :
    noteSatisfiesTok n "^archive" = !(noteHasTag n "archive") := rfl

theorem tok_exclude (n : NoteRec) :
    noteSatisfiesTok n "^exclude" = !(noteHasTag n "exclude") := rfl

theorem noteHasTag_of_mem {n : NoteRec} {t : String} (h : t ∈ n.tags) :
    noteHasTag n t = true := by
  simp only [noteHasTag, List.any_eq_true]
  exact ⟨t, h, by simp [matchTag]⟩

theorem mem_filterNotesQ {st : AppState} {q : String} {n : NoteRec} :
    n ∈ filterNotesQ st q ↔
      n ∈ st ∧ ∀ tok ∈ jsSplit ',' q, noteSatisfiesTok n tok = true := by
  simp [filterNotesQ, List.mem_filter, List.all_eq_true]

theorem excl_toks_mem (baseTag : String) :
    "^archive" ∈ jsSplit ',' (if baseTag ≠ "" then baseTag ++ ",^archive,^exclude"
        else "^archive,^exclude") ∧
    "^exclude" ∈ jsSplit ',' (if baseTag ≠ "" then baseTag ++ ",^archive,^exclude"
        else "^archive,^exclude") := by
  by_cases h : baseTag = ""
  · simp only [h, ne_eq, not_true_eq_false, if_false]
    constructor <;> decide
  · simp only [ne_eq, h, not_false_eq_true, if_true, jsSplit_query]
    constructor <;> simp

/-- C8: every note returned by the filtered query layer is free of the
`archive` and `exclude` tags (they are excluded by the `^`-tokens the
layer always appends); and with a non-empty domain filter, a note is in
the result exactly when it passes the base query and either carries no
domain tag at all or carries at least one domain tag from the filter. -/
theorem c8_getFilteredNotes :
    (∀ (st : AppState) (baseTag : String) (dts : List String) (n : NoteRec),
        n ∈ getFilteredNotes st baseTag dts →
        "archive" ∉ n.tags ∧ "exclude" ∉ n.tags) ∧
    (∀ (st : AppState) (baseTag : String) (dts : List String) (n : NoteRec), dts ≠ [] →
        (n ∈ getFilteredNotes st baseTag dts ↔
          n ∈ filterNotesQ st (if baseTag ≠ "" then baseTag ++ ",^archive,^exclude"
              else "^archive,^exclude") ∧
            (domainTagsOf n = [] ∨ ∃ dt ∈ dts, dt ∈ domainTagsOf n))) := by
  have hpre : ∀ (st : AppState) (baseTag : String) (dts : List String) (n : NoteRec),
      n ∈ getFilteredNotes st baseTag dts →
      n ∈ filterNotesQ st (if baseTag ≠ "" then baseTag ++ ",^archive,^exclude"
          else "^archive,^exclude") := by
    intro st baseTag dts n h
    unfold getFilteredNotes at h
    by_cases hd : dts.length > 0
    · simp only [hd, if_true] at h
      exact (List.mem_filter.mp h).1
    · simpa only [hd, if_false] using h
  constructor
  · intro st baseTag dts n h
    have h1 := hpre st baseTag dts n h
    rw [mem_filterNotesQ] at h1
    obtain ⟨-, htoks⟩ := h1
    have ⟨ha, he⟩ := excl_toks_mem baseTag
    have h2 := htoks _ ha
    have h3 := htoks _ he
    rw [tok_archive] at h2
    rw [tok_exclude] at h3
    constructor
    · intro hmem
      rw [noteHasTag_of_mem hmem] at h2
      exact absurd h2 (by simp)
    · intro hmem
      rw [noteHasTag_of_mem hmem] at h3
      exact absurd h3 (by simp)
  · intro st baseTag dts n hne
    have hd : dts.length > 0 := by
      cases dts with
      | nil => exact absurd rfl hne
      | cons a l => simp
    unfold getFilteredNotes
    simp only [hd, if_true, List.mem_filter]
    constructor
    · rintro ⟨h1, h2⟩
      refine ⟨h1, ?_⟩
      simp only [Bool.or_eq_true, decide_eq_true_eq, List.any_eq_true] at h2
      rcases h2 with h2 | h2
      · exact Or.inl (List.length_eq_zero.mp h2)
      · obtain ⟨dt, hdt, hc⟩ := h2
        exact Or.inr ⟨dt, hdt, by simpa using hc⟩
    · rintro ⟨h1, h2⟩
      refine ⟨h1, ?_⟩
      simp only [Bool.or_eq_true, decide_eq_true_eq, List.any_eq_true]
      rcases h2 with h2 | h2
      · exact Or.inl (by simp [h2])
      · obtain ⟨dt, hdt, hc⟩ := h2
        exact Or.inr ⟨dt, hdt, by simpa using hc⟩

end C8

section C9

theorem strExt {s t : String} (h : s.data = t.data) : s = t := by
  rw [← mk_data s, ← mk_data t, h]

theorem find?_first {α} {p : α → Bool} {pre : List α} {t : α} (post : List α)
    (hpre : ∀ u ∈ pre, p u = false) (ht : p t = true) :
    List.find? p (pre ++ t :: post) = some t := by
  induction pre with
  | nil => simp [List.find?_cons_of_pos, ht]
  | cons a as ih =>
    rw [List.cons_append, List.find?_cons_of_neg _ (by simp [hpre a (by simp)])]
    exact ih (fun u hu => hpre u (by simp [hu]))

theorem sStarts_ne_head {p s : String} {a b : Char} {p' s' : List Char}
    (hp : p.data = a :: p') (hs : s.data = b :: s') (hne : a ≠ b) :
    sStarts p s = false := by
  rw [← Bool.not_eq_true]
  intro h
  obtain ⟨t, ht⟩ := sStarts_iff.mp h
  rw [hp, hs] at ht
  exact hne (by simpa using congrArg (fun l => l.headD 'z') ht.symm)

theorem refTag_data (sub r : String) :
    ("reference/" ++ sub ++ "/" ++ r).data =
      "reference".data ++ '/' :: (sub.data ++ '/' :: r.data) := by
  simp [String.data_append]

theorem jsSplit_refTag {sub : String} (r : String) (hsub : ∀ c ∈ sub.data, c ≠ '/') :
    jsSplit '/' ("reference/" ++ sub ++ "/" ++ r) =
      "reference" :: sub :: jsSplit '/' r := by
  unfold jsSplit
  rw [refTag_data, splitCharL_append_sep, splitCharL_append_sep,
    splitCharL_no_sep (by decide : ∀ c ∈ "reference".data, c ≠ '/'),
    splitCharL_no_sep hsub]
  simp [mk_data]

/-- C9 (amended): the `part_000` classifier picks the first tag in the
note's own tag-list order that matches any of the shapes `list/*`,
`project/*`, `reference/*` or a bare type name, and collapses it:
`project/*` to `project`, `reference/<subtype>` to the subtype for the
four known subtypes, anything else to the tag itself; `none` exactly when
no tag matches any shape. -/
theorem c9_getNoteType_amended :
    (∀ (n : NoteRec) (pre : List String) (t : String) (post : List String),
        n.tags = pre ++ t :: post → (∀ u ∈ pre, P0.typeShape u = false) →
        P0.typeShape t = true → P0.getNoteType n = some (P0.collapseTag t)) ∧
    (∀ n : NoteRec, (∀ t ∈ n.tags, P0.typeShape t = false) → P0.getNoteType n = none) ∧
    (∀ t : String, sStarts "project/" t = true → P0.collapseTag t = "project") ∧
    (∀ sub ∈ (["people", "software", "vendor", "horizon"] : List String), ∀ r : String,
        P0.collapseTag ("reference/" ++ sub ++ "/" ++ r) = sub) := by
  refine ⟨?_, ?_, ?_, ?_⟩
  · intro n pre t post htags hpre ht
    unfold P0.getNoteType
    rw [htags, find?_first post hpre ht]
    rfl
  · intro n h
    unfold P0.getNoteType
    rw [List.find?_eq_none.mpr (fun t ht => by simp [h t ht])]
    rfl
  · intro t ht
    unfold P0.collapseTag
    rw [ht]
    rfl
  · intro sub hsub r
    simp only [List.mem_cons, List.mem_singleton, List.not_mem_nil, or_false] at hsub
    have hdr : ("reference/" ++ sub ++ "/" ++ r).data =
        'r' :: ("eference".data ++ '/' :: (sub.data ++ '/' :: r.data)) := by
      rw [refTag_data]
      rfl
    have hproj : sStarts "project/" ("reference/" ++ sub ++ "/" ++ r) = false :=
      @sStarts_ne_head "project/" ("reference/" ++ sub ++ "/" ++ r) 'p' 'r'
        ("roject/".data) ("eference".data ++ '/' :: (sub.data ++ '/' :: r.data))
        rfl hdr (by decide)
    have href : sStarts "reference/" ("reference/" ++ sub ++ "/" ++ r) = true := by
      have h : ("reference/" ++ sub ++ "/" ++ r) = "reference/" ++ (sub ++ "/" ++ r) := by
        apply strExt; simp [String.data_append]
      rw [h]
      exact sStarts_append _ _
    have hnos : ∀ c ∈ sub.data, c ≠ '/' := by
      rcases hsub with h | h | h | h <;> subst h <;> decide
    have hmem : (["people", "software", "vendor", "horizon"] : List String).contains sub = true := by
      rcases hsub with h | h | h | h <;> subst h <;> decide
    have hidx : jsIndex (jsSplit '/' ("reference/" ++ sub ++ "/" ++ r)) 1 = sub := by
      rw [jsSplit_refTag r hnos]
      rfl
    unfold P0.collapseTag
    rw [hproj, href, hidx, hmem]
    simp

/-- C9 counterexample: the classifier does not give `list/*` priority over
`project/*` — tag-list order decides — and it does not return `null` for a
note whose only tag is a bare type name. -/
theorem c9_counterexample :
    P0.getNoteType ⟨"u1", "n1", ["project/active", "list/x"], ""⟩ = some "project" ∧
      ("project" : String) ≠ "list/x" ∧
      P0.getNoteType ⟨"u2", "n2", ["software"], ""⟩ = some "software" := by
  refine ⟨by decide, by decide, by decide⟩

end C9

section C6

/-- C6: when the two notes' canonical types differ, the `part_000`
parent/child operation stops at the type check: it reports a type
mismatch and returns the store exactly as it was, so no `r/parent/*`,
`r/child/*` or `note-id/*` tag is added to either note. -/
theorem c6_type_mismatch (st : AppState) (cu pu : String) (child parent : NoteRec)
    (hc : findNote st cu = some child) (hp : findNote st pu = some parent)
    (hne : P0.getNoteType child ≠ P0.getNoteType parent) :
    P0.setParentChildRelationship st cu pu = (st, RelOutcome.typeMismatch) := by
  unfold P0.setParentChildRelationship
  rw [hc, hp]
  simp [hne]

/-- Witness for C6: one project note and one people note in a two-note
store; the operation reports the mismatch and leaves the store unchanged. -/
theorem c6_type_mismatch_witness :
    P0.setParentChildRelationship
        [⟨"uc", "Proj", ["project/active", "note-id/C"], ""⟩,
         ⟨"up", "Person", ["reference/people", "note-id/P"], ""⟩] "uc" "up" =
      ([⟨"uc", "Proj", ["project/active", "note-id/C"], ""⟩,
        ⟨"up", "Person", ["reference/people", "note-id/P"], ""⟩], RelOutcome.typeMismatch) :=
  c6_type_mismatch _ "uc" "up"
    ⟨"uc", "Proj", ["project/active", "note-id/C"], ""⟩
    ⟨"up", "Person", ["reference/people", "note-id/P"], ""⟩
    (by decide) (by decide) (by decide)

end C6

section StateLemmas

theorem uuid_of_findNote {st : AppState} {u : String} {n : NoteRec}
    (h : findNote st u = some n) : n.uuid = u := by
  have := List.find?_some h
  simpa using this

theorem mem_of_findNote {st : AppState} {u : String} {n : NoteRec}
    (h : findNote st u = some n) : n ∈ st :=
  List.mem_of_find?_eq_some h

theorem findNote_addTagS (st : AppState) (u t v : String) :
    findNote (addTagS st u t) v =
      (findNote st v).map
        (fun n => if n.uuid = u then { n with tags := addTagL n.tags t } else n) := by
  unfold findNote addTagS
  rw [List.find?_map]
  have hp : ((fun n : NoteRec => decide (n.uuid = v)) ∘ fun n =>
      if n.uuid = u then { n with tags := addTagL n.tags t } else n) =
      (fun n : NoteRec => decide (n.uuid = v)) := by
    funext n
    by_cases h : n.uuid = u <;> simp [h]
  rw [hp]

theorem findNote_removeTagS (st : AppState) (u t v : String) :
    findNote (removeTagS st u t) v =
      (findNote st v).map
        (fun n => if n.uuid = u then { n with tags := removeTagL n.tags t } else n) := by
  unfold findNote removeTagS
  rw [List.find?_map]
  have hp : ((fun n : NoteRec => decide (n.uuid = v)) ∘ fun n =>
      if n.uuid = u then { n with tags := removeTagL n.tags t } else n) =
      (fun n : NoteRec => decide (n.uuid = v)) := by
    funext n
    by_cases h : n.uuid = u <;> simp [h]
  rw [hp]

theorem mem_addTagL_self (tags : List String) (t : String) : t ∈ addTagL tags t := by
  unfold addTagL
  by_cases h : tags.contains t = true
  · rw [if_pos h]
    simpa using h
  · rw [if_neg h]
    simp

theorem mem_addTagL_iff {tags : List String} {t u : String} :
    u ∈ addTagL tags t ↔ u ∈ tags ∨ u = t := by
  unfold addTagL
  by_cases h : tags.contains t = true
  · rw [if_pos h]
    constructor
    · exact Or.inl
    · rintro (hu | rfl)
      · exact hu
      · simpa using h
  · rw [if_neg h]
    simp

theorem not_mem_removeTagL (tags : List String) (t : String) : t ∉ removeTagL tags t := by
  unfold removeTagL
  simp

theorem find?_append_left {α} {p : α → Bool} {l : List α} {x : α}
    (h : l.find? p = some x) (l' : List α) : (l ++ l').find? p = some x := by
  induction l with
  | nil => simp [List.find?] at h
  | cons a as ih =>
    by_cases hp : p a
    · rw [List.find?_cons_of_pos _ hp] at h
      rw [List.cons_append, List.find?_cons_of_pos _ hp]
      exact h
    · rw [List.find?_cons_of_neg _ (by simpa using hp)] at h
      rw [List.cons_append, List.find?_cons_of_neg _ (by simpa using hp)]
      exact ih h

theorem find?_addTagL {tags : List String} {p : String → Bool} {x t : String}
    (h : tags.find? p = some x) : (addTagL tags t).find? p = some x := by
  unfold addTagL
  by_cases hc : tags.contains t = true
  · rw [if_pos hc]
    exact h
  · rw [if_neg hc]
    exact find?_append_left h _

theorem str_ne_of_head {p q : String} {a b : Char} {p' q' : List Char}
    (hp : p.data = a :: p') (hq : q.data = b :: q') (hne : a ≠ b) : p ≠ q := by
  intro h
  rw [h, hq] at hp
  simp only [List.cons.injEq] at hp
  exact hne hp.1.symm

theorem matchTag_false_head {t q : String} {a b : Char} {t' q' : List Char}
    (ht : t.data = a :: t') (hq : q.data = b :: q') (hne : a ≠ b) :
    matchTag t q = false := by
  unfold matchTag
  have h1 : (t == q) = false := beq_eq_false_iff_ne.mpr (str_ne_of_head ht hq hne)
  have hqd : (q ++ "/").data = b :: (q' ++ "/".data) := by
    simp [String.data_append, hq]
  have h2 : sStarts (q ++ "/") t = false := sStarts_ne_head hqd ht (Ne.symm hne)
  rw [h1, h2]
  rfl

theorem jsSplit_two_levels {a b : String} (c : String)
    (ha : ∀ x ∈ a.data, x ≠ '/') (hb : ∀ x ∈ b.data, x ≠ '/') :
    jsSplit '/' (a ++ "/" ++ b ++ "/" ++ c) = a :: b :: jsSplit '/' c := by
  have hd : (a ++ "/" ++ b ++ "/" ++ c).data = a.data ++ '/' :: (b.data ++ '/' :: c.data) := by
    simp [String.data_append]
  unfold jsSplit
  rw [hd, splitCharL_append_sep, splitCharL_append_sep, splitCharL_no_sep ha,
    splitCharL_no_sep hb]
  simp [mk_data]

theorem noteIdSplit {v : String} (hv : ∀ c ∈ v.data, c ≠ '/') :
    jsIndex (jsSplit '/' ("note-id/" ++ v)) 1 = v := by
  have h : ("note-id/" ++ v) = "note-id" ++ "/" ++ v :=
    strExt (by simp [String.data_append])
  rw [h, jsSplit_slash_two (by decide) hv]
  rfl

theorem rRelSplit {kind : String} {v : String} (hk : ∀ c ∈ kind.data, c ≠ '/')
    (hv : ∀ c ∈ v.data, c ≠ '/') :
    jsIndex (jsSplit '/' ("r" ++ "/" ++ kind ++ "/" ++ v)) 2 = v := by
  rw [jsSplit_two_levels v (by decide) hk, jsSplit_no_sep hv]
  rfl

end StateLemmas

section C5Helpers

theorem noteSatisfiesTok_noteid (n : NoteRec) (v : String) :
    noteSatisfiesTok n ("note-id/" ++ v) = noteHasTag n ("note-id/" ++ v) := by
  obtain ⟨vd⟩ := v
  rfl

theorem filterNotesQ_noteid (st : AppState) (v : String) (hv : ∀ c ∈ v.data, c ≠ ',') :
    filterNotesQ st ("note-id/" ++ v) =
      st.filter (fun n => noteHasTag n ("note-id/" ++ v)) := by
  unfold filterNotesQ
  have hq : jsSplit ',' ("note-id/" ++ v) = ["note-id/" ++ v] := by
    apply jsSplit_no_sep
    intro c hc
    rw [String.data_append] at hc
    rcases List.mem_append.mp hc with h | h
    · exact (by decide : ∀ c ∈ ("note-id/" : String).data, c ≠ ',') c h
    · exact hv c h
  rw [hq]
  congr 1
  funext n
  simp [noteSatisfiesTok_noteid]

theorem head?_filter_uuid {st : AppState} {p : NoteRec → Bool} {u : String}
    (hall : ∀ n ∈ st, p n = true → n.uuid = u) {w : NoteRec}
    (hw : w ∈ st) (hpw : p w = true) :
    ∃ m, (st.filter p).head? = some m ∧ m.uuid = u := by
  have hmem : w ∈ st.filter p := List.mem_filter.mpr ⟨hw, hpw⟩
  cases hf : st.filter p with
  | nil => rw [hf] at hmem; simp at hmem
  | cons m rest =>
    refine ⟨m, rfl, ?_⟩
    have hm : m ∈ st.filter p := by rw [hf]; simp
    obtain ⟨hms, hpm⟩ := List.mem_filter.mp hm
    exact hall m hms hpm

theorem mem_addTagS {st : AppState} {u t : String} {n' : NoteRec} (h : n' ∈ addTagS st u t) :
    ∃ n ∈ st, n' = if n.uuid = u then { n with tags := addTagL n.tags t } else n := by
  unfold addTagS at h
  obtain ⟨n, hn, h2⟩ := List.mem_map.mp h
  exact ⟨n, hn, h2.symm⟩

theorem any_matchTag_addTagL {tags : List String} {rt q : String} {rt' q' : List Char}
    (hrt : rt.data = 'r' :: rt') (hq : q.data = 'n' :: q')
    (h : (addTagL tags rt).any (fun t => matchTag t q) = true) :
    tags.any (fun t => matchTag t q) = true := by
  rw [List.any_eq_true] at h ⊢
  obtain ⟨t, ht, hm⟩ := h
  rcases mem_addTagL_iff.mp ht with h' | rfl
  · exact ⟨t, h', hm⟩
  · rw [matchTag_false_head hrt hq (by decide)] at hm
    exact absurd hm (by simp)

theorem uniq_transfer_addTagS {st : AppState} {u rt q : String} {rt' q' : List Char}
    (hrt : rt.data = 'r' :: rt') (hq : q.data = 'n' :: q') {tu : String}
    (huniq : ∀ n ∈ st, noteHasTag n q = true → n.uuid = tu) :
    ∀ n' ∈ addTagS st u rt, noteHasTag n' q = true → n'.uuid = tu := by
  intro n' hn' hhas
  obtain ⟨n, hn, rfl⟩ := mem_addTagS hn'
  by_cases hcase : n.uuid = u
  · simp only [if_pos hcase] at hhas ⊢
    unfold noteHasTag at hhas
    exact huniq n hn (any_matchTag_addTagL hrt hq hhas)
  · simp only [if_neg hcase] at hhas ⊢
    exact huniq n hn hhas

theorem mem_image_addTagS {st : AppState} {u t : String} {n : NoteRec} (hn : n ∈ st) :
    ∃ n' ∈ addTagS st u t, n'.uuid = n.uuid ∧ ∀ x ∈ n.tags, x ∈ n'.tags := by
  unfold addTagS
  refine ⟨if n.uuid = u then { n with tags := addTagL n.tags t } else n,
    List.mem_map.mpr ⟨n, hn, rfl⟩, ?_⟩
  by_cases hcase : n.uuid = u
  · refine ⟨?_, ?_⟩
    · rw [if_pos hcase]
    · intro x hx
      rw [if_pos hcase]
      exact mem_addTagL_iff.mpr (Or.inl hx)
  · rw [if_neg hcase]
    exact ⟨rfl, fun x hx => hx⟩

end C5Helpers

section C5

/-- C5: once both notes carry unique stable-id tags, a successful
`setParentChildRelationship(child, parent)` leaves `r/parent/<pid>` on the
child and `r/child/<cid>` on the parent, so `getParentNotes(child)`
resolves the parent and `getChildNotes(parent)` resolves the child; and
`removeRelationship` — invoked for the parent relation from the child side
or for the child relation from the parent side — removes both
complementary tags, leaving neither direction in place. -/
theorem c5_parent_child_symmetry
    (st : AppState) (cu pu cid pid : String) (child parent : NoteRec)
    (hcu : findNote st cu = some child) (hpu : findNote st pu = some parent)
    (hcp : cu ≠ pu)
    (hcid : child.tags.find? (fun t => sStarts "note-id/" t) = some ("note-id/" ++ cid))
    (hpid : parent.tags.find? (fun t => sStarts "note-id/" t) = some ("note-id/" ++ pid))
    (hcid_s : ∀ c ∈ cid.data, c ≠ '/') (hcid_c : ∀ c ∈ cid.data, c ≠ ',')
    (hpid_s : ∀ c ∈ pid.data, c ≠ '/') (hpid_c : ∀ c ∈ pid.data, c ≠ ',')
    (huniqC : ∀ n ∈ st, noteHasTag n ("note-id/" ++ cid) = true → n.uuid = cu)
    (huniqP : ∀ n ∈ st, noteHasTag n ("note-id/" ++ pid) = true → n.uuid = pu) :
    ∃ st4, G3.setParentChildRelationship st cu pu = (st4, RelOutcome.ok) ∧
      (∃ child1, findNote st4 cu = some child1 ∧ ("r/parent/" ++ pid) ∈ child1.tags) ∧
      (∃ parent1, findNote st4 pu = some parent1 ∧ ("r/child/" ++ cid) ∈ parent1.tags) ∧
      (∃ ps, getParentNotes st4 cu = some ps ∧ ∃ p ∈ ps, p.uuid = pu) ∧
      (∃ chs, getChildNotes st4 pu = some chs ∧ ∃ c ∈ chs, c.uuid = cu) ∧
      (∃ st6, G3.removeRelationship st4 cu "parent" pu = some st6 ∧
        (∃ child2, findNote st6 cu = some child2 ∧ ("r/parent/" ++ pid) ∉ child2.tags) ∧
        (∃ parent2, findNote st6 pu = some parent2 ∧ ("r/child/" ++ cid) ∉ parent2.tags)) ∧
      (∃ st7, G3.removeRelationship st4 pu "child" cu = some st7 ∧
        (∃ child3, findNote st7 cu = some child3 ∧ ("r/parent/" ++ pid) ∉ child3.tags) ∧
        (∃ parent3, findNote st7 pu = some parent3 ∧ ("r/child/" ++ cid) ∉ parent3.tags)) := by
  have hcuu := uuid_of_findNote hcu
  have hpuu := uuid_of_findNote hpu
  have hrp_d : ("r/parent/" ++ pid).data = 'r' :: ("/parent/".data ++ pid.data) := by
    rw [String.data_append]
    rfl
  have hrc_d : ("r/child/" ++ cid).data = 'r' :: ("/child/".data ++ cid.data) := by
    rw [String.data_append]
    rfl
  have hqP_d : ("note-id/" ++ pid).data = 'n' :: ("ote-id/".data ++ pid.data) := by
    rw [String.data_append]
    rfl
  have hqC_d : ("note-id/" ++ cid).data = 'n' :: ("ote-id/".data ++ cid.data) := by
    rw [String.data_append]
    rfl
  have hA : getNoteIdTag st cu = some ("note-id/" ++ cid, st) := by
    simp only [getNoteIdTag, hcu, hcid]
  have hB : getNoteIdTag st pu = some ("note-id/" ++ pid, st) := by
    simp only [getNoteIdTag, hpu, hpid]
  have hset : G3.setParentChildRelationship st cu pu =
      (addTagS (addTagS st cu ("r/parent/" ++ pid)) pu ("r/child/" ++ cid),
        RelOutcome.ok) := by
    simp only [G3.setParentChildRelationship, hcu, hpu, hA, hB, noteIdSplit hcid_s,
      noteIdSplit hpid_s]
  have hchild4 : findNote (addTagS (addTagS st cu ("r/parent/" ++ pid)) pu
      ("r/child/" ++ cid)) cu =
      some { child with tags := addTagL child.tags ("r/parent/" ++ pid) } := by
    rw [findNote_addTagS, findNote_addTagS, hcu]
    simp [hcuu, hcp]
  have hparent4 : findNote (addTagS (addTagS st cu ("r/parent/" ++ pid)) pu
      ("r/child/" ++ cid)) pu =
      some { parent with tags := addTagL parent.tags ("r/child/" ++ cid) } := by
    rw [findNote_addTagS, findNote_addTagS, hpu]
    simp [hpuu, Ne.symm hcp]
  have hCid4 : ({ child with tags := addTagL child.tags ("r/parent/" ++ pid) } :
      NoteRec).tags.find? (fun t => sStarts "note-id/" t) = some ("note-id/" ++ cid) :=
    find?_addTagL hcid
  have hPid4 : ({ parent with tags := addTagL parent.tags ("r/child/" ++ cid) } :
      NoteRec).tags.find? (fun t => sStarts "note-id/" t) = some ("note-id/" ++ pid) :=
    find?_addTagL hpid
  have hA4 : getNoteIdTag (addTagS (addTagS st cu ("r/parent/" ++ pid)) pu
      ("r/child/" ++ cid)) cu = some ("note-id/" ++ cid,
      addTagS (addTagS st cu ("r/parent/" ++ pid)) pu ("r/child/" ++ cid)) := by
    simp only [getNoteIdTag, hchild4, hCid4]
  have hB4 : getNoteIdTag (addTagS (addTagS st cu ("r/parent/" ++ pid)) pu
      ("r/child/" ++ cid)) pu = some ("note-id/" ++ pid,
      addTagS (addTagS st cu ("r/parent/" ++ pid)) pu ("r/child/" ++ cid)) := by
    simp only [getNoteIdTag, hparent4, hPid4]
  refine ⟨_, hset, ⟨_, hchild4, mem_addTagL_self _ _⟩, ⟨_, hparent4, mem_addTagL_self _ _⟩,
    ?_, ?_, ?_, ?_⟩
  · -- parentsOf(child) includes the parent
    unfold getParentNotes
    rw [hchild4]
    refine ⟨_, rfl, ?_⟩
    have hsplit2 : jsIndex (jsSplit '/' ("r/parent/" ++ pid)) 2 = pid := by
      have hform : ("r/parent/" ++ pid) = "r" ++ "/" ++ "parent" ++ "/" ++ pid :=
        strExt (by simp [String.data_append])
      rw [hform]
      exact rRelSplit (by decide) hpid_s
    have hpidmem : pid ∈ (({ child with tags := addTagL child.tags ("r/parent/" ++ pid) } :
        NoteRec).tags.filter (fun t => sStarts "r/parent/" t)).map
        (fun t => jsIndex (jsSplit '/' t) 2) :=
      List.mem_map.mpr ⟨_, List.mem_filter.mpr ⟨mem_addTagL_self _ _, sStarts_append _ _⟩,
        hsplit2⟩
    have huniq4 : ∀ n ∈ addTagS (addTagS st cu ("r/parent/" ++ pid)) pu
        ("r/child/" ++ cid), noteHasTag n ("note-id/" ++ pid) = true → n.uuid = pu :=
      uniq_transfer_addTagS hrc_d hqP_d (uniq_transfer_addTagS hrp_d hqP_d huniqP)
    have hwit : noteHasTag { parent with tags := addTagL parent.tags ("r/child/" ++ cid) }
        ("note-id/" ++ pid) = true :=
      noteHasTag_of_mem (mem_addTagL_iff.mpr (Or.inl (List.mem_of_find?_eq_some hpid)))
    obtain ⟨m, hm, hmu⟩ := head?_filter_uuid huniq4 (mem_of_findNote hparent4) hwit
    refine ⟨m, List.mem_filterMap.mpr ⟨pid, hpidmem, ?_⟩, hmu⟩
    rw [filterNotesQ_noteid _ _ hpid_c]
    exact hm
  · -- childrenOf(parent) includes the child
    unfold getChildNotes
    rw [hparent4]
    refine ⟨_, rfl, ?_⟩
    have hsplit2 : jsIndex (jsSplit '/' ("r/child/" ++ cid)) 2 = cid := by
      have hform : ("r/child/" ++ cid) = "r" ++ "/" ++ "child" ++ "/" ++ cid :=
        strExt (by simp [String.data_append])
      rw [hform]
      exact rRelSplit (by decide) hcid_s
    have hcidmem : cid ∈ (({ parent with tags := addTagL parent.tags ("r/child/" ++ cid) } :
        NoteRec).tags.filter (fun t => sStarts "r/child/" t)).map
        (fun t => jsIndex (jsSplit '/' t) 2) :=
      List.mem_map.mpr ⟨_, List.mem_filter.mpr ⟨mem_addTagL_self _ _, sStarts_append _ _⟩,
        hsplit2⟩
    have huniq4 : ∀ n ∈ addTagS (addTagS st cu ("r/parent/" ++ pid)) pu
        ("r/child/" ++ cid), noteHasTag n ("note-id/" ++ cid) = true → n.uuid = cu :=
      uniq_transfer_addTagS hrc_d hqC_d (uniq_transfer_addTagS hrp_d hqC_d huniqC)
    have hwit : noteHasTag { child with tags := addTagL child.tags ("r/parent/" ++ pid) }
        ("note-id/" ++ cid) = true :=
      noteHasTag_of_mem (mem_addTagL_iff.mpr (Or.inl (List.mem_of_find?_eq_some hcid)))
    obtain ⟨m, hm, hmu⟩ := head?_filter_uuid huniq4 (mem_of_findNote hchild4) hwit
    refine ⟨m, List.mem_filterMap.mpr ⟨cid, hcidmem, ?_⟩, hmu⟩
    rw [filterNotesQ_noteid _ _ hcid_c]
    exact hm
  · -- removal of the parent relation from the child side
    refine ⟨removeTagS (removeTagS (addTagS (addTagS st cu ("r/parent/" ++ pid)) pu
      ("r/child/" ++ cid)) cu ("r/parent/" ++ pid)) pu ("r/child/" ++ cid), ?_, ?_, ?_⟩
    · simp only [G3.removeRelationship, hparent4, hA4, hB4, noteIdSplit hcid_s,
        noteIdSplit hpid_s]
      simp
    · refine ⟨{ child with tags := removeTagL (addTagL child.tags ("r/parent/" ++ pid)) ("r/parent/" ++ pid) }, ?_, not_mem_removeTagL _ _⟩
      rw [findNote_removeTagS, findNote_removeTagS, hchild4]
      simp [hcuu, hcp]
    · refine ⟨{ parent with tags := removeTagL (addTagL parent.tags ("r/child/" ++ cid)) ("r/child/" ++ cid) }, ?_, not_mem_removeTagL _ _⟩
      rw [findNote_removeTagS, findNote_removeTagS, hparent4]
      simp [hpuu, Ne.symm hcp]
  · -- removal of the child relation from the parent side
    refine ⟨removeTagS (removeTagS (addTagS (addTagS st cu ("r/parent/" ++ pid)) pu
      ("r/child/" ++ cid)) pu ("r/child/" ++ cid)) cu ("r/parent/" ++ pid), ?_, ?_, ?_⟩
    · simp only [G3.removeRelationship, hchild4, hA4, hB4, noteIdSplit hcid_s,
        noteIdSplit hpid_s]
      simp
    · refine ⟨{ child with tags := removeTagL (addTagL child.tags ("r/parent/" ++ pid)) ("r/parent/" ++ pid) }, ?_, not_mem_removeTagL _ _⟩
      rw [findNote_removeTagS, findNote_removeTagS, hchild4]
      simp [hcuu, hcp]
    · refine ⟨{ parent with tags := removeTagL (addTagL parent.tags ("r/child/" ++ cid)) ("r/child/" ++ cid) }, ?_, not_mem_removeTagL _ _⟩
      rw [findNote_removeTagS, findNote_removeTagS, hparent4]
      simp [hpuu, Ne.symm hcp]

end C5

/-- Demo child note for the C5 witness. -/
def c5child : NoteRec := ⟨"uc", "Child", ["project/active", "note-id/C1"], ""⟩

/-- Demo parent note for the C5 witness. -/
def c5parent : NoteRec := ⟨"up", "Parent", ["project/active", "note-id/P1"], ""⟩

/-- Demo store for the C5 witness. -/
def c5St : AppState := [c5child, c5parent]

/-- Witness for C5 at a concrete two-note store. -/
theorem c5_parent_child_symmetry_witness :
    ∃ st4, G3.setParentChildRelationship c5St "uc" "up" = (st4, RelOutcome.ok) ∧
      (∃ child1, findNote st4 "uc" = some child1 ∧ ("r/parent/" ++ "P1") ∈ child1.tags) ∧
      (∃ parent1, findNote st4 "up" = some parent1 ∧ ("r/child/" ++ "C1") ∈ parent1.tags) ∧
      (∃ ps, getParentNotes st4 "uc" = some ps ∧ ∃ p ∈ ps, p.uuid = "up") ∧
      (∃ chs, getChildNotes st4 "up" = some chs ∧ ∃ c ∈ chs, c.uuid = "uc") ∧
      (∃ st6, G3.removeRelationship st4 "uc" "parent" "up" = some st6 ∧
        (∃ child2, findNote st6 "uc" = some child2 ∧ ("r/parent/" ++ "P1") ∉ child2.tags) ∧
        (∃ parent2, findNote st6 "up" = some parent2 ∧ ("r/child/" ++ "C1") ∉ parent2.tags)) ∧
      (∃ st7, G3.removeRelationship st4 "up" "child" "uc" = some st7 ∧
        (∃ child3, findNote st7 "uc" = some child3 ∧ ("r/parent/" ++ "P1") ∉ child3.tags) ∧
        (∃ parent3, findNote st7 "up" = some parent3 ∧ ("r/child/" ++ "C1") ∉ parent3.tags)) :=
  c5_parent_child_symmetry c5St "uc" "up" "C1" "P1" c5child c5parent
    (by decide) (by decide) (by decide) (by decide) (by decide) (by decide) (by decide)
    (by decide) (by decide) (by decide) (by decide)

section C7

/-- Demo store for C7: two project notes, both with stable ids. -/
def c7St : AppState :=
  [⟨"u1", "ProjOne", ["project/active", "note-id/A1"], ""⟩,
   ⟨"u2", "ProjTwo", ["project/active", "note-id/A2"], ""⟩]

/-- C7 failing input: in the `part_000` revision, `getNoteType` collapses
both notes to the canonical type `project`, which does not satisfy the
`startsWith('project/')` guards of `addRelationshipByType`; so instead of
rejecting the project-to-project pair with the invalid-relationship alert
and leaving both notes untouched, the code falls through to the symmetric
branch and tags each note with `r/project/<otherId>`. -/
theorem c7_addRelationshipByType_p000_bug :
    P0.addRelationshipByType c7St "u1" "u2" =
      some ([⟨"u1", "ProjOne", ["project/active", "note-id/A1", "r/project/A2"], ""⟩,
             ⟨"u2", "ProjTwo", ["project/active", "note-id/A2", "r/project/A1"], ""⟩],
        RelOutcome.ok) ∧
    P0.addRelationshipByType c7St "u1" "u2" ≠ some (c7St, RelOutcome.invalidRel) := by
  refine ⟨by decide, by decide⟩

end C7

/-- Demo note with one domain tag for the C8 witness. -/
def c8home : NoteRec := ⟨"h", "Home", ["d/home"], ""⟩

/-- Demo note with no domain tag for the C8 witness. -/
def c8plain : NoteRec := ⟨"z", "Plain", [], ""⟩

/-- Demo store for the C8 witness. -/
def c8StW : AppState := [c8home, c8plain]

/-- Witness for C8 at a concrete store: the un-archived note of the result
is free of exclusion tags, and the `d/home` note's membership under the
filter `[d/work]` is decided by the domain post-filter disjunction. -/
theorem c8_getFilteredNotes_witness :
    ("archive" ∉ c8plain.tags ∧ "exclude" ∉ c8plain.tags) ∧
    (c8home ∈ getFilteredNotes c8StW "" ["d/work"] ↔
      c8home ∈ filterNotesQ c8StW (if ("" : String) ≠ "" then "" ++ ",^archive,^exclude"
          else "^archive,^exclude") ∧
        (domainTagsOf c8home = [] ∨ ∃ dt ∈ (["d/work"] : List String),
          dt ∈ domainTagsOf c8home)) :=
  ⟨c8_getFilteredNotes.1 c8StW "" ["d/work"] c8plain (by decide),
   c8_getFilteredNotes.2 c8StW "" ["d/work"] c8home (by decide)⟩

/-- Witness for C9 (amended) at concrete notes: a non-shape tag is skipped,
the first matching tag decides, and `reference/people/...` collapses to
`people`. -/
theorem c9_getNoteType_amended_witness :
    P0.getNoteType ⟨"w", "W", ["x/ignore", "reference/people/team"], ""⟩ =
      some (P0.collapseTag "reference/people/team") ∧
    P0.collapseTag ("reference/" ++ "people" ++ "/" ++ "team") = "people" :=
  ⟨c9_getNoteType_amended.1 ⟨"w", "W", ["x/ignore", "reference/people/team"], ""⟩
      ["x/ignore"] "reference/people/team" [] (by decide) (by decide) (by decide),
   c9_getNoteType_amended.2.2.2 "people" (by decide) "team"⟩

section C4Decimal

/-- Value of a little-endian decimal digit list. -/
def decVal : List Nat → Nat
  | [] => 0
  | d :: ds => d + 10 * decVal ds

theorem decDigitsF_val : ∀ fuel n, n ≤ fuel → decVal (decDigitsF fuel n) = n := by
  intro fuel
  induction fuel with
  | zero => intro n h; interval_cases n; rfl
  | succ fuel ih =>
    intro n h
    by_cases h0 : n = 0
    · subst h0; simp [decDigitsF, decVal]
    · have hlt : n / 10 ≤ fuel := by
        have := Nat.div_lt_self (Nat.pos_of_ne_zero h0) (by norm_num : 1 < 10)
        omega
      simp only [decDigitsF, if_neg h0, decVal, ih _ hlt]
      omega

theorem decDigitsF_lt10 : ∀ fuel n d, d ∈ decDigitsF fuel n → d < 10 := by
  intro fuel
  induction fuel with
  | zero => intro n d h; simp [decDigitsF] at h
  | succ fuel ih =>
    intro n d h
    by_cases h0 : n = 0
    · subst h0; simp [decDigitsF] at h
    · simp only [decDigitsF, if_neg h0, List.mem_cons] at h
      rcases h with rfl | h
      · exact Nat.mod_lt _ (by norm_num)
      · exact ih _ _ h

theorem map_decChar_inj : ∀ {ds1 ds2 : List Nat}, (∀ d ∈ ds1, d < 10) → (∀ d ∈ ds2, d < 10) →
    ds1.map decChar = ds2.map decChar → ds1 = ds2 := by
  intro ds1
  induction ds1 with
  | nil => intro ds2 _ _ h; cases ds2 <;> simp_all
  | cons d1 ds1 ih =>
    intro ds2 h1 h2 h
    cases ds2 with
    | nil => simp at h
    | cons d2 ds2 =>
      simp only [List.map_cons, List.cons.injEq] at h
      have hd : d1 = d2 :=
        (by decide : ∀ a < 10, ∀ b < 10, decChar a = decChar b → a = b) d1
          (h1 d1 (by simp)) d2 (h2 d2 (by simp)) h.1
      rw [hd, ih (fun d hd2 => h1 d (by simp [hd2])) (fun d hd2 => h2 d (by simp [hd2])) h.2]

theorem decimalStr_digitList_lt10 (n : Nat) :
    ∀ d ∈ (if n = 0 then [0] else decDigitsF n n), d < 10 := by
  by_cases h0 : n = 0
  · simp [h0]
  · simp only [if_neg h0]
    exact fun d hd => decDigitsF_lt10 n n d hd

theorem decimalStr_inj : Function.Injective decimalStr := by
  intro a b h
  unfold decimalStr at h
  have hdata := congrArg String.data h
  simp only at hdata
  have hrev := List.reverse_injective (map_decChar_inj
    (fun d hd => decimalStr_digitList_lt10 a d (List.mem_reverse.mp hd))
    (fun d hd => decimalStr_digitList_lt10 b d (List.mem_reverse.mp hd)) hdata)
  have hval := congrArg decVal hrev
  by_cases ha : a = 0 <;> by_cases hb : b = 0
  · rw [ha, hb]
  · rw [if_pos ha, if_neg hb, decDigitsF_val b b le_rfl] at hval
    subst ha
    simp [decVal] at hval
    omega
  · rw [if_neg ha, if_pos hb, decDigitsF_val a a le_rfl] at hval
    subst hb
    simp [decVal] at hval
    omega
  · rw [if_neg ha, if_neg hb, decDigitsF_val a a le_rfl, decDigitsF_val b b le_rfl] at hval
    exact hval

theorem decimalStr_isDigit (n : Nat) : ∀ c ∈ (decimalStr n).data, c.isDigit = true := by
  unfold decimalStr
  intro c hc
  simp only [List.mem_map, List.mem_reverse] at hc
  obtain ⟨d, hd, rfl⟩ := hc
  exact (by decide : ∀ d < 10, (decChar d).isDigit = true) d
    (decimalStr_digitList_lt10 n d hd)

theorem digit_ne_special {c : Char} (h : c.isDigit = true) :
    c ≠ '/' ∧ c ≠ ',' ∧ c ≠ '-' := by
  refine ⟨?_, ?_, ?_⟩ <;> intro heq <;> subst heq <;> simp [Char.isDigit] at h

end C4Decimal

section C4Cand

/-- The candidate value after the `note-id/` prefix: the base timestamp,
then `-1`, `-2`, ... suffixes. -/
def candTail (base : String) : Nat → String
  | 0 => base
  | k + 1 => base ++ "-" ++ decimalStr (k + 1)

theorem candAux_eq (base : String) (k : Nat) :
    candAux base k = "note-id/" ++ candTail base k := by
  cases k with
  | zero => rfl
  | succ k =>
    apply strExt
    simp [candAux, candTail, String.data_append]

theorem candTail_chars {base : String} (hbase : ∀ c ∈ base.data, c.isDigit = true) (k : Nat) :
    ∀ c ∈ (candTail base k).data, c.isDigit = true ∨ c = '-' := by
  cases k with
  | zero => exact fun c hc => Or.inl (hbase c hc)
  | succ k =>
    intro c hc
    simp only [candTail, String.data_append, List.mem_append] at hc
    rcases hc with (hc | hc) | hc
    · exact Or.inl (hbase c hc)
    · right
      simpa using hc
    · exact Or.inl (decimalStr_isDigit _ c hc)

theorem candTail_ne_slash {base : String} (hbase : ∀ c ∈ base.data, c.isDigit = true)
    (k : Nat) : ∀ c ∈ (candTail base k).data, c ≠ '/' := by
  intro c hc
  rcases candTail_chars hbase k c hc with hd | he
  · exact (digit_ne_special hd).1
  · rw [he]; decide

theorem candTail_ne_comma {base : String} (hbase : ∀ c ∈ base.data, c.isDigit = true)
    (k : Nat) : ∀ c ∈ (candTail base k).data, c ≠ ',' := by
  intro c hc
  rcases candTail_chars hbase k c hc with hd | he
  · exact (digit_ne_special hd).2.1
  · rw [he]; decide

theorem decimalStr_length_pos (n : Nat) : 0 < (decimalStr n).data.length := by
  unfold decimalStr
  by_cases h0 : n = 0
  · simp [h0]
  · obtain ⟨m, rfl⟩ := Nat.exists_eq_succ_of_ne_zero h0
    simp [decDigitsF, h0]

theorem candTail_inj {base : String} : ∀ {i j : Nat},
    candTail base i = candTail base j → i = j := by
  have hlen : ∀ m : Nat, (candTail base 0).data.length <
      (candTail base (m + 1)).data.length := by
    intro m
    have := decimalStr_length_pos (m + 1)
    simp only [candTail, String.data_append, List.length_append]
    have h1 : ("-" : String).data.length = 1 := by decide
    omega
  intro i j h
  cases i with
  | zero =>
    cases j with
    | zero => rfl
    | succ j =>
      exfalso
      have hl := congrArg (fun s : String => s.data.length) h
      simp only at hl
      have := hlen j
      omega
  | succ i =>
    cases j with
    | zero =>
      exfalso
      have hl := congrArg (fun s : String => s.data.length) h
      simp only at hl
      have := hlen i
      omega
    | succ j =>
      simp only [candTail] at h
      have hd := congrArg String.data h
      simp only [String.data_append, List.append_assoc] at hd
      have hd2 := List.append_cancel_left (List.append_cancel_left hd)
      have := decimalStr_inj (strExt hd2)
      omega

theorem prefix_total {α : Type} : ∀ {t u v : List α}, (∃ r, t = u ++ r) →
    (∃ r, t = v ++ r) → (∃ r, v = u ++ r) ∨ (∃ r, u = v ++ r) := by
  intro t
  induction t with
  | nil =>
    rintro u v ⟨r, hr⟩ ⟨s, hs⟩
    have hu : u = [] := by
      cases u with
      | nil => rfl
      | cons b u' => simp at hr
    subst hu
    exact Or.inl ⟨v, rfl⟩
  | cons a t ih =>
    rintro u v ⟨r, hr⟩ ⟨s, hs⟩
    cases u with
    | nil => exact Or.inl ⟨v, rfl⟩
    | cons b u' =>
      cases v with
      | nil => exact Or.inr ⟨b :: u', rfl⟩
      | cons c v' =>
        simp only [List.cons_append, List.cons.injEq] at hr hs
        rcases ih ⟨r, hr.2⟩ ⟨s, hs.2⟩ with ⟨w, hw⟩ | ⟨w, hw⟩
        · exact Or.inl ⟨w, by simp [hs.1.symm, hr.1, hw]⟩
        · exact Or.inr ⟨w, by simp [hr.1.symm, hs.1, hw]⟩

theorem candAux_inj {base : String} {i j : Nat}
    (h : candAux base i = candAux base j) : i = j := by
  rw [candAux_eq, candAux_eq] at h
  have hd := congrArg String.data h
  simp only [String.data_append] at hd
  exact candTail_inj (strExt (List.append_cancel_left hd))

theorem cand_prefix_aux {base : String} (hbase : ∀ c ∈ base.data, c.isDigit = true)
    {i j : Nat} {s : List Char}
    (h : (candAux base j).data ++ ['/'] = (candAux base i).data ++ ['/'] ++ s) : i = j := by
  cases s with
  | nil =>
    simp only [List.append_nil] at h
    exact (candAux_inj (strExt (List.append_cancel_right h))).symm
  | cons c s' =>
    exfalso
    have hdl := congrArg List.dropLast h
    have hne : (['/'] ++ c :: s' : List Char) ≠ [] := by simp
    rw [List.dropLast_concat, List.append_assoc,
      List.dropLast_append_of_ne_nil _ hne] at hdl
    have hstep : (['/'] ++ c :: s' : List Char).dropLast = '/' :: (c :: s').dropLast := rfl
    rw [hstep, candAux_eq, candAux_eq] at hdl
    simp only [String.data_append, List.append_assoc] at hdl
    have htail := List.append_cancel_left hdl
    have hmem : '/' ∈ (candTail base j).data := by
      rw [htail]
      simp
    exact candTail_ne_slash hbase j '/' hmem rfl

theorem cand_eq_of_pre {base : String} (hbase : ∀ c ∈ base.data, c.isDigit = true)
    {i j : Nat} {r : List Char}
    (hr : (candAux base i).data = (candAux base j).data ++ ['/'] ++ r) : False := by
  rw [candAux_eq, candAux_eq] at hr
  simp only [String.data_append, List.append_assoc] at hr
  have htail := List.append_cancel_left hr
  have hmem : '/' ∈ (candTail base i).data := by
    rw [htail]
    simp
  exact candTail_ne_slash hbase i '/' hmem rfl

theorem cand_match_inj {base : String} (hbase : ∀ c ∈ base.data, c.isDigit = true)
    {t : String} {i j : Nat}
    (hi : matchTag t (candAux base i) = true) (hj : matchTag t (candAux base j) = true) :
    i = j := by
  have hexp : ∀ k : Nat, ((candAux base k) ++ "/").data =
      (candAux base k).data ++ ['/'] := by
    intro k
    rw [String.data_append]
  unfold matchTag at hi hj
  rw [Bool.or_eq_true] at hi hj
  rcases hi with hi | hi <;> rcases hj with hj | hj
  · have h1 : t = candAux base i := by simpa using hi
    have h2 : t = candAux base j := by simpa using hj
    exact candAux_inj (h1.symm.trans h2)
  · exfalso
    have h1 : t = candAux base i := by simpa using hi
    obtain ⟨r, hr⟩ := sStarts_iff.mp hj
    rw [h1, hexp] at hr
    exact cand_eq_of_pre hbase hr
  · exfalso
    have h1 : t = candAux base j := by simpa using hj
    obtain ⟨r, hr⟩ := sStarts_iff.mp hi
    rw [h1, hexp] at hr
    exact cand_eq_of_pre hbase hr
  · obtain ⟨r1, hr1⟩ := sStarts_iff.mp hi
    obtain ⟨r2, hr2⟩ := sStarts_iff.mp hj
    rw [hexp] at hr1 hr2
    rcases prefix_total ⟨r1, hr1⟩ ⟨r2, hr2⟩ with ⟨w, hw⟩ | ⟨w, hw⟩
    · exact cand_prefix_aux hbase hw
    · exact (cand_prefix_aux hbase hw).symm

end C4Cand

section C4Loop

theorem parseCreated_digits {created base : String}
    (h : parseCreated created = some base) : ∀ c ∈ base.data, c.isDigit = true := by
  unfold parseCreated at h
  split at h
  · split at h
    · next hall =>
      intro c hc
      cases h
      rw [List.all_eq_true] at hall
      exact hall c hc
    · exact absurd h (by simp)
  · exact absurd h (by simp)

theorem genLoopF_succ (st : AppState) (u base : String) (fuel k : Nat) :
    genLoopF st u base (fuel + 1) k =
      if candOwned st u (candAux base k) = true then genLoopF st u base fuel (k + 1)
      else some (candAux base k) := rfl

theorem genLoopF_none_owned {st : AppState} {u base : String} :
    ∀ {fuel k : Nat}, genLoopF st u base fuel k = none →
      ∀ j, j < fuel → candOwned st u (candAux base (k + j)) = true := by
  intro fuel
  induction fuel with
  | zero => intro k _ j hj; omega
  | succ fuel ih =>
    intro k h j hj
    rw [genLoopF_succ] at h
    by_cases ho : candOwned st u (candAux base k) = true
    · rw [if_pos ho] at h
      cases j with
      | zero => simpa using ho
      | succ j =>
        have heq : k + (j + 1) = (k + 1) + j := by omega
        rw [heq]
        exact ih h j (by omega)
    · rw [if_neg ho] at h
      exact absurd h (by simp)

theorem genLoopF_some_shape {st : AppState} {u base : String} :
    ∀ {fuel k : Nat} {c : String}, genLoopF st u base fuel k = some c →
      (∃ j, c = candAux base (k + j)) ∧ candOwned st u c = false := by
  intro fuel
  induction fuel with
  | zero => intro k c h; simp [genLoopF] at h
  | succ fuel ih =>
    intro k c h
    rw [genLoopF_succ] at h
    by_cases ho : candOwned st u (candAux base k) = true
    · rw [if_pos ho] at h
      obtain ⟨⟨j, hj⟩, hfree⟩ := ih h
      exact ⟨⟨j + 1, by rw [hj]; congr 1; omega⟩, hfree⟩
    · rw [if_neg ho] at h
      cases h
      exact ⟨⟨0, by simp⟩, by simpa using ho⟩

theorem jsSplit_cand {base : String} (hbase : ∀ c ∈ base.data, c.isDigit = true) (j : Nat) :
    jsSplit ',' (candAux base j) = [candAux base j] := by
  rw [candAux_eq]
  apply jsSplit_no_sep
  intro c hc
  rw [String.data_append] at hc
  rcases List.mem_append.mp hc with h | h
  · exact (by decide : ∀ c ∈ ("note-id/" : String).data, c ≠ ',') c h
  · exact candTail_ne_comma hbase j c h

theorem candOwned_iff {st : AppState} {u base : String}
    (hbase : ∀ c ∈ base.data, c.isDigit = true) (j : Nat) :
    candOwned st u (candAux base j) = true ↔
      ∃ n ∈ st, n.uuid ≠ u ∧ ∃ t ∈ n.tags, matchTag t (candAux base j) = true := by
  unfold candOwned
  rw [List.any_eq_true]
  constructor
  · rintro ⟨n, hn, hne⟩
    have h2 := mem_filterNotesQ.mp hn
    have htok := h2.2 (candAux base j) (by rw [jsSplit_cand hbase]; simp)
    rw [candAux_eq] at htok
    rw [noteSatisfiesTok_noteid] at htok
    unfold noteHasTag at htok
    rw [List.any_eq_true] at htok
    obtain ⟨t, ht, hm⟩ := htok
    refine ⟨n, h2.1, by simpa using hne, t, ht, ?_⟩
    rw [candAux_eq]
    exact hm
  · rintro ⟨n, hn, hne, t, ht, hm⟩
    refine ⟨n, mem_filterNotesQ.mpr ⟨hn, ?_⟩, by simpa using hne⟩
    intro tok htok
    rw [jsSplit_cand hbase] at htok
    simp only [List.mem_singleton] at htok
    subst htok
    rw [candAux_eq, noteSatisfiesTok_noteid]
    unfold noteHasTag
    rw [List.any_eq_true]
    refine ⟨t, ht, ?_⟩
    rw [← candAux_eq]
    exact hm

theorem genLoopF_budget_some (st : AppState) (u base : String)
    (hbase : ∀ c ∈ base.data, c.isDigit = true) :
    genLoopF st u base (tagBudget st + 1) 0 ≠ none := by
  intro hnone
  have howned := genLoopF_none_owned hnone
  have hex : ∀ j : Nat, ∃ t : String, j < tagBudget st + 1 →
      t ∈ st.flatMap (fun n => n.tags) ∧ matchTag t (candAux base j) = true := by
    intro j
    by_cases hj : j < tagBudget st + 1
    · have ho := howned j hj
      rw [Nat.zero_add] at ho
      obtain ⟨n, hn, -, t, ht, hm⟩ := (candOwned_iff hbase j).mp ho
      exact ⟨t, fun _ => ⟨List.mem_flatMap.mpr ⟨n, hn, ht⟩, hm⟩⟩
    · exact ⟨"", fun h => absurd h hj⟩
  choose f hf using hex
  have hmaps : ∀ j ∈ Finset.range (tagBudget st + 1),
      f j ∈ (st.flatMap (fun n => n.tags)).toFinset := by
    intro j hj
    rw [List.mem_toFinset]
    exact (hf j (Finset.mem_range.mp hj)).1
  have hcard : ((st.flatMap (fun n => n.tags)).toFinset).card <
      (Finset.range (tagBudget st + 1)).card := by
    rw [Finset.card_range]
    have h1 := List.toFinset_card_le (st.flatMap (fun n => n.tags))
    unfold tagBudget
    omega
  obtain ⟨x, hx, y, hy, hxy, hfxy⟩ :=
    Finset.exists_ne_map_eq_of_card_lt_of_maps_to hcard hmaps
  have h1 := (hf x (Finset.mem_range.mp hx)).2
  have h2 := (hf y (Finset.mem_range.mp hy)).2
  rw [hfxy] at h1
  exact hxy (cand_match_inj hbase h1 h2)

end C4Loop

section C4

/-- C4: the stable-ID operation.  (i) A note already carrying a
`note-id/*` tag gets exactly that tag back, with no store change — and
since the operation is a pure function of the store, every repeated call
returns the same value.  (ii) Otherwise the candidate derived from the
creation timestamp is suffix-incremented until no other note owns it in
the live tag index; the loop succeeds within the store's total tag count,
the winning tag is persisted, and it is owned by no other note.
(iii) Hence two distinct notes created in the same second (same
`YYYYMMDDHHMMSS` base), tagged one after the other, receive distinct
stable IDs. -/
theorem c4_stable_id :
    (∀ (st : AppState) (u tg : String) (note : NoteRec),
        findNote st u = some note →
        note.tags.find? (fun t => sStarts "note-id/" t) = some tg →
        getNoteIdTag st u = some (tg, st)) ∧
    (∀ (st : AppState) (u base : String) (note : NoteRec),
        findNote st u = some note →
        note.tags.find? (fun t => sStarts "note-id/" t) = none →
        parseCreated note.created = some base →
        ∃ tg, generateUniqueNoteIdTag st note = some tg ∧
          getNoteIdTag st u = some (tg, addTagS st u tg) ∧
          candOwned st u tg = false) ∧
    (∀ (st : AppState) (u1 u2 base : String) (n1 n2 : NoteRec),
        findNote st u1 = some n1 → findNote st u2 = some n2 → u1 ≠ u2 →
        n1.tags.find? (fun t => sStarts "note-id/" t) = none →
        n2.tags.find? (fun t => sStarts "note-id/" t) = none →
        parseCreated n1.created = some base → parseCreated n2.created = some base →
        ∃ tg1 tg2, getNoteIdTag st u1 = some (tg1, addTagS st u1 tg1) ∧
          getNoteIdTag (addTagS st u1 tg1) u2 =
            some (tg2, addTagS (addTagS st u1 tg1) u2 tg2) ∧
          tg1 ≠ tg2) := by
  have hmint : ∀ (st : AppState) (u base : String) (note : NoteRec),
      findNote st u = some note →
      note.tags.find? (fun t => sStarts "note-id/" t) = none →
      parseCreated note.created = some base →
      ∃ tg, generateUniqueNoteIdTag st note = some tg ∧
        getNoteIdTag st u = some (tg, addTagS st u tg) ∧
        candOwned st u tg = false ∧ ∃ j, tg = candAux base j := by
    intro st u base note hfind hnone hp
    have hbase := parseCreated_digits hp
    cases hg : genLoopF st note.uuid base (tagBudget st + 1) 0 with
    | none => exact absurd hg (genLoopF_budget_some st note.uuid base hbase)
    | some tg =>
      obtain ⟨⟨j, hj⟩, hfree⟩ := genLoopF_some_shape hg
      have hgen : generateUniqueNoteIdTag st note = some tg := by
        unfold generateUniqueNoteIdTag
        rw [hp]
        exact hg
      refine ⟨tg, hgen, ?_, ?_, ⟨j, by simpa using hj⟩⟩
      · simp only [getNoteIdTag, hfind, hnone, hgen]
      · have hu := uuid_of_findNote hfind
        rw [← hu]
        exact hfree
  refine ⟨?_, ?_, ?_⟩
  · intro st u tg note hfind htag
    simp only [getNoteIdTag, hfind, htag]
  · intro st u base note hfind hnone hp
    obtain ⟨tg, h1, h2, h3, -⟩ := hmint st u base note hfind hnone hp
    exact ⟨tg, h1, h2, h3⟩
  · intro st u1 u2 base n1 n2 h1 h2 hne hn1 hn2 hp1 hp2
    obtain ⟨tg1, -, hget1, -, j1, hj1⟩ := hmint st u1 base n1 h1 hn1 hp1
    have hbase := parseCreated_digits hp1
    -- note 2 is unchanged in the updated store
    have h2' : findNote (addTagS st u1 tg1) u2 = some n2 := by
      rw [findNote_addTagS, h2]
      simp [uuid_of_findNote h2, Ne.symm hne]
    obtain ⟨tg2, -, hget2, hfree2, -⟩ :=
      hmint (addTagS st u1 tg1) u2 base n2 h2' hn2 hp2
    refine ⟨tg1, tg2, hget1, hget2, ?_⟩
    intro heq
    -- if the ids coincided, note 1 would own tg2 in the updated store
    subst heq
    subst hj1
    have howner : candOwned (addTagS st u1 (candAux base j1)) u2 (candAux base j1) = true := by
      rw [candOwned_iff hbase]
      refine ⟨{ n1 with tags := addTagL n1.tags (candAux base j1) }, ?_, ?_,
        candAux base j1, ?_, ?_⟩
      · unfold addTagS
        refine List.mem_map.mpr ⟨n1, mem_of_findNote h1, ?_⟩
        rw [if_pos (uuid_of_findNote h1)]
      · simpa [uuid_of_findNote h1] using hne
      · exact mem_addTagL_self _ _
      · simp [matchTag]
    rw [hfree2] at howner
    exact absurd howner (by simp)

/-- Demo notes for the C4 witness: two notes created in the same second,
one of them already owning the base candidate through an earlier third
note's tag. -/
def c4n1 : NoteRec := ⟨"x1", "One", ["project/active"], "2025-07-26T14:15:07Z"⟩

/-- Second same-second note for the C4 witness. -/
def c4n2 : NoteRec := ⟨"x2", "Two", ["project/active"], "2025-07-26T14:15:07.500Z"⟩

/-- Store for the C4 witness. -/
def c4St : AppState := [c4n1, c4n2]

/-- Witness for C4: in a store with two notes created in the same second,
the sequential mint hands out `note-id/20250726141507` and then
`note-id/20250726141507-1`, which are distinct. -/
theorem c4_stable_id_witness :
    ∃ tg1 tg2, getNoteIdTag c4St "x1" = some (tg1, addTagS c4St "x1" tg1) ∧
      getNoteIdTag (addTagS c4St "x1" tg1) "x2" =
        some (tg2, addTagS (addTagS c4St "x1" tg1) "x2" tg2) ∧
      tg1 ≠ tg2 :=
  c4_stable_id.2.2 c4St "x1" "x2" "20250726141507" c4n1 c4n2
    (by decide) (by decide) (by decide) (by decide) (by decide) (by decide) (by decide)

end C4

/-- `pass1F` on a character that does not open a footnote reference copies it
and recurses. -/
theorem pass1F_other {fuel : Nat} {c : Char} {cs : List Char} {m : FMap} {k : Nat}
    (h : ∀ cs1, c = '[' → cs = '^' :: cs1 → False) :
    pass1F (fuel + 1) (c :: cs) m k =
      (c :: (pass1F fuel cs m k).1, (pass1F fuel cs m k).2) := by
  rw [pass1F.eq_def]
  split
  · next heq => exact absurd heq (by omega)
  · next heq1 heq2 => exact absurd heq2 (by simp)
  · next cs2 heq1 heq2 =>
    exfalso
    simp only [List.cons.injEq] at heq2
    exact h cs2 heq2.1 heq2.2
  · next f2 c2 cs2 hno heq1 heq2 =>
    simp only [List.cons.injEq] at heq2
    obtain ⟨rfl, rfl⟩ := heq2
    have hf : fuel = f2 := by omega
    subst hf
    rfl

theorem refLabelsF_other {fuel : Nat} {c : Char} {cs : List Char}
    (h : ∀ cs1, c = '[' → cs = '^' :: cs1 → False) :
    refLabelsF (fuel + 1) (c :: cs) = refLabelsF fuel cs := by
  rw [refLabelsF.eq_def]
  split
  · next heq => exact absurd heq (by omega)
  · next heq1 heq2 => exact absurd heq2 (by simp)
  · next cs2 heq1 heq2 =>
    exfalso
    simp only [List.cons.injEq] at heq2
    exact h cs2 heq2.1 heq2.2
  · next f2 c2 cs2 hno heq1 heq2 =>
    simp only [List.cons.injEq] at heq2
    obtain ⟨rfl, rfl⟩ := heq2
    have hf : fuel = f2 := by omega
    subst hf
    rfl


theorem scanLabel_length {cs : List Char} {lab : String} {rest : List Char}
    (h : scanLabel cs = some (lab, rest)) : rest.length < cs.length := by
  unfold scanLabel at h
  split at h
  · next rest2 heq =>
    split at h
    · exact absurd h (by simp)
    · cases h
      have h2 := List.takeWhile_append_dropWhile labChar cs
      rw [heq] at h2
      have h3 := congrArg List.length h2
      simp at h3
      omega
  · exact absurd h (by simp)

theorem pass1F_counter_le : ∀ fuel cs m k, k ≤ (pass1F fuel cs m k).2.2 := by
  intro fuel cs m k
  induction fuel, cs, m, k using pass1F.induct with
  | case1 cs m k => simp [pass1F]
  | case2 fuel m k => simp [pass1F]
  | case3 fuel cs m k lab rest hscan p hfind ih =>
    simpa [pass1F, hscan, hfind] using ih
  | case4 fuel cs m k lab rest hscan hfind ih =>
    have h2 : k + 1 ≤ (pass1F fuel rest (m ++ [(lab, k)]) (k + 1)).2.2 := ih
    simp only [pass1F, hscan, hfind]
    omega
  | case5 fuel cs m k hscan ih =>
    simpa [pass1F, hscan] using ih
  | case6 fuel c cs m k hshape ih =>
    rw [pass1F_other hshape]
    exact ih

theorem pass1F_map_shape : ∀ fuel cs m k, ∃ nm : FMap,
    (pass1F fuel cs m k).2.1 = m ++ nm ∧
      ∀ p ∈ nm, k ≤ p.2 ∧ p.2 < (pass1F fuel cs m k).2.2 := by
  intro fuel cs m k
  induction fuel, cs, m, k using pass1F.induct with
  | case1 cs m k => exact ⟨[], by simp [pass1F]⟩
  | case2 fuel m k => exact ⟨[], by simp [pass1F]⟩
  | case3 fuel cs m k lab rest hscan p hfind ih =>
    simpa only [pass1F, hscan, hfind] using ih
  | case4 fuel cs m k lab rest hscan hfind ih =>
    obtain ⟨nm, hm, hv⟩ := ih
    refine ⟨(lab, k) :: nm, ?_, ?_⟩
    · simp only [pass1F, hscan, hfind]
      rw [hm]
      simp
    · intro p hp
      simp only [pass1F, hscan, hfind]
      rcases List.mem_cons.1 hp with h1 | h1
      · subst h1
        have := pass1F_counter_le fuel rest (m ++ [(lab, k)]) (k + 1)
        exact ⟨le_refl k, by omega⟩
      · have := hv p h1
        exact ⟨by omega, this.2⟩
  | case5 fuel cs m k hscan ih =>
    simpa only [pass1F, hscan] using ih
  | case6 fuel c cs m k hshape ih =>
    rw [pass1F_other hshape]
    exact ih

theorem pass1F_keys : ∀ fuel cs m k,
    m.Pairwise (fun p q => p.1 ≠ q.1) →
    (pass1F fuel cs m k).2.1.Pairwise (fun p q => p.1 ≠ q.1) := by
  intro fuel cs m k
  induction fuel, cs, m, k using pass1F.induct with
  | case1 cs m k => intro h; simpa [pass1F] using h
  | case2 fuel m k => intro h; simpa [pass1F] using h
  | case3 fuel cs m k lab rest hscan p hfind ih =>
    intro h
    simpa only [pass1F, hscan, hfind] using ih h
  | case4 fuel cs m k lab rest hscan hfind ih =>
    intro h
    have hnot : ∀ p ∈ m, p.1 ≠ lab := by
      intro p hp
      have := List.find?_eq_none.1 hfind p hp
      simpa using this
    have h2 : (m ++ [(lab, k)]).Pairwise (fun p q => p.1 ≠ q.1) := by
      rw [List.pairwise_append]
      exact ⟨h, List.pairwise_singleton _ _, by
        intro a ha b hb
        simp only [List.mem_singleton] at hb
        subst hb
        exact hnot a ha⟩
    simpa only [pass1F, hscan, hfind] using ih h2
  | case5 fuel cs m k hscan ih =>
    intro h
    simpa only [pass1F, hscan] using ih h
  | case6 fuel c cs m k hshape ih =>
    intro h
    rw [pass1F_other hshape]
    exact ih h

theorem pass1F_values : ∀ fuel cs m k,
    (∀ p ∈ m, p.2 < k) →
    m.Pairwise (fun p q => p.2 < q.2) →
    (∀ p ∈ (pass1F fuel cs m k).2.1, p.2 < (pass1F fuel cs m k).2.2) ∧
      (pass1F fuel cs m k).2.1.Pairwise (fun p q => p.2 < q.2) := by
  intro fuel cs m k
  induction fuel, cs, m, k using pass1F.induct with
  | case1 cs m k => intro h1 h2; exact ⟨by simpa [pass1F] using h1, by simpa [pass1F] using h2⟩
  | case2 fuel m k => intro h1 h2; exact ⟨by simpa [pass1F] using h1, by simpa [pass1F] using h2⟩
  | case3 fuel cs m k lab rest hscan p hfind ih =>
    intro h1 h2
    simpa only [pass1F, hscan, hfind] using ih h1 h2
  | case4 fuel cs m k lab rest hscan hfind ih =>
    intro h1 h2
    have h1' : ∀ p ∈ m ++ [(lab, k)], p.2 < k + 1 := by
      intro p hp
      rcases List.mem_append.1 hp with h | h
      · have := h1 p h; omega
      · simp only [List.mem_singleton] at h; subst h; omega
    have h2' : (m ++ [(lab, k)]).Pairwise (fun p q => p.2 < q.2) := by
      rw [List.pairwise_append]
      exact ⟨h2, List.pairwise_singleton _ _, by
        intro a ha b hb
        simp only [List.mem_singleton] at hb
        subst hb
        exact h1 a ha⟩
    simpa only [pass1F, hscan, hfind] using ih h1' h2'
  | case5 fuel cs m k hscan ih =>
    intro h1 h2
    simpa only [pass1F, hscan] using ih h1 h2
  | case6 fuel c cs m k hshape ih =>
    intro h1 h2
    rw [pass1F_other hshape]
    exact ih h1 h2

theorem card_insert_eq_erase {α : Type} [DecidableEq α] (a : α) (s : Finset α) :
    (insert a s).card = (s.erase a).card + 1 := by
  by_cases h : a ∈ s
  · rw [Finset.insert_eq_self.2 h, Finset.card_erase_of_mem h]
    have := Finset.card_pos.2 ⟨a, h⟩
    omega
  · rw [Finset.card_insert_of_not_mem h, Finset.erase_eq_of_not_mem h]

theorem pass1F_counter_eq : ∀ fuel cs (m : FMap) k, cs.length ≤ fuel →
    (pass1F fuel cs m k).2.2 =
      k + ((refLabelsF fuel cs).toFinset \ (m.map Prod.fst).toFinset).card := by
  intro fuel cs m k
  induction fuel, cs, m, k using pass1F.induct with
  | case1 cs m k =>
    intro h
    have hnil : cs = [] := List.length_eq_zero.1 (Nat.le_zero.1 h)
    subst hnil
    simp [pass1F, refLabelsF]
  | case2 fuel m k =>
    intro h
    simp [pass1F, refLabelsF]
  | case3 fuel cs m k lab rest hscan p hfind ih =>
    intro h
    have hlen : rest.length ≤ fuel := by
      have := scanLabel_length hscan
      simp only [List.length_cons] at h
      omega
    have hlabK : lab ∈ (m.map Prod.fst).toFinset := by
      have hmem := List.mem_of_find?_eq_some hfind
      have heq : p.1 = lab := by simpa using List.find?_some hfind
      rw [List.mem_toFinset, List.mem_map]
      exact ⟨p, hmem, heq⟩
    simp only [pass1F, hscan, hfind, refLabelsF]
    rw [List.toFinset_cons, Finset.insert_sdiff_of_mem _ hlabK]
    exact ih hlen
  | case4 fuel cs m k lab rest hscan hfind ih =>
    intro h
    have hlen : rest.length ≤ fuel := by
      have := scanLabel_length hscan
      simp only [List.length_cons] at h
      omega
    have hlabK : lab ∉ (m.map Prod.fst).toFinset := by
      intro hmem
      rw [List.mem_toFinset, List.mem_map] at hmem
      obtain ⟨p, hp, hpl⟩ := hmem
      have := List.find?_eq_none.1 hfind p hp
      simp [hpl] at this
    have hK : ((m ++ [(lab, k)]).map Prod.fst).toFinset =
        insert lab (m.map Prod.fst).toFinset := by
      ext x
      simp [or_comm]
    have ih2 := ih hlen
    rw [hK] at ih2
    simp only [pass1F, hscan, hfind, refLabelsF]
    rw [List.toFinset_cons, Finset.insert_sdiff_of_not_mem _ hlabK,
      card_insert_eq_erase, ← Finset.sdiff_insert]
    omega
  | case5 fuel cs m k hscan ih =>
    intro h
    have hlen : ('^' :: cs).length ≤ fuel := by
      simp only [List.length_cons] at h ⊢
      omega
    simp only [pass1F, hscan, refLabelsF]
    exact ih hlen
  | case6 fuel c cs m k hshape ih =>
    intro h
    rw [pass1F_other hshape, refLabelsF_other hshape]
    refine ih ?_
    simp only [List.length_cons] at h
    omega

theorem pass1F_keys_mem : ∀ fuel cs (m : FMap) k, cs.length ≤ fuel →
    ∀ lab ∈ refLabelsF fuel cs, ∃ p ∈ (pass1F fuel cs m k).2.1, p.1 = lab := by
  intro fuel cs m k
  induction fuel, cs, m, k using pass1F.induct with
  | case1 cs m k =>
    intro h lab hl
    have hnil : cs = [] := List.length_eq_zero.1 (Nat.le_zero.1 h)
    subst hnil
    simp [refLabelsF] at hl
  | case2 fuel m k =>
    intro h lab hl
    simp [refLabelsF] at hl
  | case3 fuel cs m k lab0 rest hscan p hfind ih =>
    intro h lab hl
    have hlen : rest.length ≤ fuel := by
      have := scanLabel_length hscan
      simp only [List.length_cons] at h
      omega
    simp only [refLabelsF, hscan, List.mem_cons] at hl
    simp only [pass1F, hscan, hfind]
    rcases hl with hl | hl
    · subst hl
      obtain ⟨nm, hm, _⟩ := pass1F_map_shape fuel rest m k
      refine ⟨p, ?_, by simpa using List.find?_some hfind⟩
      rw [hm]
      exact List.mem_append_left _ (List.mem_of_find?_eq_some hfind)
    · exact ih hlen lab hl
  | case4 fuel cs m k lab0 rest hscan hfind ih =>
    intro h lab hl
    have hlen : rest.length ≤ fuel := by
      have := scanLabel_length hscan
      simp only [List.length_cons] at h
      omega
    simp only [refLabelsF, hscan, List.mem_cons] at hl
    simp only [pass1F, hscan, hfind]
    rcases hl with hl | hl
    · subst hl
      obtain ⟨nm, hm, _⟩ := pass1F_map_shape fuel rest (m ++ [(lab, k)]) (k + 1)
      refine ⟨(lab, k), ?_, rfl⟩
      rw [hm]
      exact List.mem_append_left _ (by simp)
    · exact ih hlen lab hl
  | case5 fuel cs m k hscan ih =>
    intro h lab hl
    have hlen : ('^' :: cs).length ≤ fuel := by
      simp only [List.length_cons] at h ⊢
      omega
    simp only [refLabelsF, hscan] at hl
    simp only [pass1F, hscan]
    exact ih hlen lab hl
  | case6 fuel c cs m k hshape ih =>
    intro h lab hl
    rw [refLabelsF_other hshape] at hl
    rw [pass1F_other hshape]
    refine ih ?_ lab hl
    simp only [List.length_cons] at h
    omega

theorem fnChars_inj {a b : Nat} (h : fnChars a = fnChars b) : a = b := by
  simp only [fnChars, List.cons.injEq, true_and] at h
  have h2 : decimalStr a = decimalStr b := by
    rw [← mk_data (decimalStr a), ← mk_data (decimalStr b), h]
  exact decimalStr_inj h2

theorem uniqMap_range (c : String) (k : Nat) :
    ∀ p ∈ uniqMap c k, k ≤ p.2 ∧ p.2 < (uniquifyFootnotes c k).2 := by
  intro p hp
  obtain ⟨nm, hm, hv⟩ := pass1F_map_shape c.data.length c.data [] k
  have hmem : p ∈ nm := by
    rw [uniqMap, pass1, hm, List.nil_append] at hp
    exact hp
  exact hv p hmem

/-- **C3.** When two source fragments are rewritten through `uniquifyFootnotes`
with the counter threaded sequentially (as the render loops do), every label of
the first fragment is assigned a strictly smaller counter value than every label
of the second fragment, so the `fn<n>` replacement labels never collide; on the
claim's concrete two-fragment example the merged output carries `fn1` and `fn2`,
each reference paired with its own rewritten definition. -/
theorem c3_footnote_threading (f1 f2 : String) (k : Nat) :
    (∀ p ∈ uniqMap f1 k, ∀ q ∈ uniqMap f2 (uniquifyFootnotes f1 k).2,
        p.2 < q.2 ∧ fnChars p.2 ≠ fnChars q.2) ∧
      uniquifyThread ["a[^1]\n[^1]: fact one", "b[^1]\n[^1]: fact two"] 1 =
        (["a[^fn1]\n[^fn1]: fact one", "b[^fn2]\n[^fn2]: fact two"], 3) := by
  constructor
  · intro p hp q hq
    have h1 := uniqMap_range f1 k p hp
    have h2 := uniqMap_range f2 (uniquifyFootnotes f1 k).2 q hq
    have hlt : p.2 < q.2 := lt_of_lt_of_le h1.2 h2.1
    exact ⟨hlt, fun he => absurd (fnChars_inj he) (Nat.ne_of_lt hlt)⟩
  · decide

/-- **C10 counterexample.** A definition line `[^x]: hi` whose label never
occurs as an inline reference is NOT left unchanged: the first replacement pass
matches the bracket part of the definition marker itself, renumbers it to
`[^fn1]:` and advances the counter, contradicting the claim's last part (and its
counter formula when references are read as excluding definition markers). -/
theorem c10_counterexample :
    uniquifyFootnotes "see note\n[^x]: hi" 1 = ("see note\n[^fn1]: hi", 2) ∧
      (uniquifyFootnotes "see note\n[^x]: hi" 1).1 ≠ "see note\n[^x]: hi" ∧
      (uniquifyFootnotes "see note\n[^x]: hi" 1).2 ≠ 1 := by decide

/-- **C10 (amended).** `uniquifyFootnotes` advances the counter by the number
of distinct labels among ALL `[^label]` occurrences (definition markers
included, since the first pass's regex is not line-anchored); every assigned
value lies in `[counterStart, nextCounter)`; distinct labels receive distinct
(strictly increasing) values; every occurring label is assigned; and a
definition line whose label occurs nowhere else is renumbered too, not left
unchanged. -/
theorem c10_uniquify_amended (content : String) (k : Nat) :
    (uniquifyFootnotes content k).2 = k + (refLabelsOf content).dedup.length ∧
      (∀ p ∈ uniqMap content k, k ≤ p.2 ∧ p.2 < (uniquifyFootnotes content k).2) ∧
      (uniqMap content k).Pairwise (fun p q => p.1 ≠ q.1 ∧ p.2 < q.2) ∧
      (∀ lab ∈ refLabelsOf content, ∃ p ∈ uniqMap content k, p.1 = lab) ∧
      uniquifyFootnotes "[^y]: note" 3 = ("[^fn3]: note", 4) := by
  refine ⟨?_, uniqMap_range content k, ?_, ?_, by decide⟩
  · have h := pass1F_counter_eq content.data.length content.data [] k (le_refl _)
    simp only [List.map_nil, List.toFinset_nil, Finset.sdiff_empty,
      List.card_toFinset] at h
    exact h
  · have hk := pass1F_keys content.data.length content.data [] k (by simp)
    have hv := (pass1F_values content.data.length content.data [] k
      (by intro p hp; simp at hp) (by simp)).2
    exact hk.and hv
  · intro lab hl
    exact pass1F_keys_mem content.data.length content.data [] k (le_refl _) lab hl

/-- Any result of the filtered query layer is a store note. -/
theorem mem_of_mem_getFilteredNotes {st : AppState} {q : String} {df : List String}
    {n : NoteRec} (h : n ∈ getFilteredNotes st q df) : n ∈ st := by
  unfold getFilteredNotes at h
  by_cases hd : df.length > 0
  · rw [if_pos hd] at h
    exact (mem_filterNotesQ.1 (List.mem_of_mem_filter h)).1
  · rw [if_neg hd] at h
    exact (mem_filterNotesQ.1 h).1

theorem length_getFilteredNotes_le (st : AppState) (q : String) (df : List String) :
    (getFilteredNotes st q df).length ≤ st.length := by
  unfold getFilteredNotes
  by_cases hd : df.length > 0
  · rw [if_pos hd]
    exact le_trans (List.length_filter_le _ _) (List.length_filter_le _ _)
  · rw [if_neg hd]
    exact List.length_filter_le _ _

/-- The count of store uuids not yet visited: the decreasing measure of the
visited-set recursions. -/
def uvCount (env : AppState) (visited : List String) : Nat :=
  ((env.map NoteRec.uuid).toFinset \ visited.toFinset).card

theorem uvCount_cons_le (env : AppState) (u : String) (visited : List String) :
    uvCount env (u :: visited) ≤ uvCount env visited := by
  apply Finset.card_le_card
  intro x hx
  simp only [Finset.mem_sdiff, List.toFinset_cons, Finset.mem_insert] at hx ⊢
  exact ⟨hx.1, fun h => hx.2 (Or.inr h)⟩

theorem uvCount_cons_lt {env : AppState} {n : NoteRec} {visited : List String}
    (hn : n ∈ env) (hv : ¬ visited.contains n.uuid = true) :
    uvCount env (n.uuid :: visited) < uvCount env visited := by
  apply Finset.card_lt_card
  constructor
  · intro x hx
    simp only [Finset.mem_sdiff, List.toFinset_cons, Finset.mem_insert] at hx ⊢
    exact ⟨hx.1, fun h => hx.2 (Or.inr h)⟩
  · intro hsub
    have hmem : n.uuid ∈ (env.map NoteRec.uuid).toFinset \ visited.toFinset := by
      simp only [Finset.mem_sdiff, List.mem_toFinset, List.mem_map]
      refine ⟨⟨n, hn, rfl⟩, ?_⟩
      intro h
      exact hv (List.elem_eq_true_of_mem h)
    have h2 := hsub hmem
    simp at h2

theorem bnlF_total_of_fuel (env : AppState) (incl : Bool) (fmt : NoteRec → String) :
    ∀ fuel notes ind visited, (∀ n ∈ notes, n ∈ env) →
    notes.length + uvCount env visited * (env.length + 1) < fuel →
    ∃ out, P0.bnlF env incl fmt fuel notes ind visited = some out := by
  intro fuel
  induction fuel with
  | zero => intro notes ind visited _ hm; omega
  | succ fuel ih =>
    intro notes ind visited hsub hm
    match notes with
    | [] => exact ⟨[], rfl⟩
    | n :: rest =>
      by_cases hv : visited.contains n.uuid = true
      · have hm2 : rest.length + uvCount env visited * (env.length + 1) < fuel := by
          simp only [List.length_cons] at hm
          omega
        obtain ⟨out, hout⟩ := ih rest ind visited
          (fun x hx => hsub x (List.mem_cons_of_mem _ hx)) hm2
        exact ⟨out, by simp only [P0.bnlF, if_pos hv]; exact hout⟩
      · have hn : n ∈ env := hsub n (List.mem_cons_self _ _)
        have hlt := uvCount_cons_lt hn hv
        have hle := uvCount_cons_le env n.uuid visited
        have hmulle : uvCount env (n.uuid :: visited) * (env.length + 1) ≤
            uvCount env visited * (env.length + 1) := Nat.mul_le_mul_right _ hle
        have hmr : rest.length + uvCount env (n.uuid :: visited) * (env.length + 1) < fuel := by
          simp only [List.length_cons] at hm
          omega
        obtain ⟨outR, houtR⟩ := ih rest ind (n.uuid :: visited)
          (fun x hx => hsub x (List.mem_cons_of_mem _ hx)) hmr
        cases hincl : incl with
        | false =>
          subst hincl
          refine ⟨(indentStr ind ++ "- " ++ fmt n) :: outR, ?_⟩
          simp only [P0.bnlF, if_neg hv, Bool.false_eq_true, if_false]
          rw [houtR]
        | true =>
          subst hincl
          cases hnid : noteIdOf n with
          | none =>
            refine ⟨(indentStr ind ++ "- " ++ fmt n) :: outR, ?_⟩
            simp only [P0.bnlF, if_neg hv, if_true, hnid]
            rw [houtR]
          | some nid =>
            have hsubc : ∀ c ∈ jsSort nameLe (getFilteredNotes env ("r/parent/" ++ nid) []),
                c ∈ env := by
              intro c hc
              rw [mem_jsSort] at hc
              exact mem_of_mem_getFilteredNotes hc
            have hlenc : (jsSort nameLe (getFilteredNotes env ("r/parent/" ++ nid) [])).length ≤
                env.length := by
              rw [length_jsSort]
              exact length_getFilteredNotes_le _ _ _
            have hmulstep : (uvCount env (n.uuid :: visited) + 1) * (env.length + 1) ≤
                uvCount env visited * (env.length + 1) := Nat.mul_le_mul_right _ hlt
            have hmc : (jsSort nameLe (getFilteredNotes env ("r/parent/" ++ nid) [])).length +
                uvCount env (n.uuid :: visited) * (env.length + 1) < fuel := by
              simp only [List.length_cons] at hm
              rw [Nat.succ_mul] at hmulstep
              omega
            obtain ⟨outC, houtC⟩ := ih _ (ind + 1) (n.uuid :: visited) hsubc hmc
            refine ⟨(indentStr ind ++ "- " ++ fmt n) :: (outC ++ outR), ?_⟩
            simp only [P0.bnlF, if_neg hv, if_true, hnid]
            rw [houtC, houtR]

theorem renderListF_total_of_fuel (env : Renv) (format : String) (incl : Bool) :
    ∀ fuel notes ind visited counter, (∀ n ∈ notes, n ∈ env.notes) →
    notes.length + uvCount env.notes visited * (env.notes.length + 1) < fuel →
    ∃ out, G3.renderListF env format incl fuel notes ind visited counter = some out := by
  intro fuel
  induction fuel with
  | zero => intro notes ind visited counter _ hm; omega
  | succ fuel ih =>
    intro notes ind visited counter hsub hm
    match notes with
    | [] => exact ⟨([], counter), rfl⟩
    | n :: rest =>
      by_cases hv : visited.contains n.uuid = true
      · have hm2 : rest.length + uvCount env.notes visited * (env.notes.length + 1) < fuel := by
          simp only [List.length_cons] at hm
          omega
        obtain ⟨out, hout⟩ := ih rest ind visited counter
          (fun x hx => hsub x (List.mem_cons_of_mem _ hx)) hm2
        exact ⟨out, by simp only [G3.renderListF, if_pos hv]; exact hout⟩
      · have hn : n ∈ env.notes := hsub n (List.mem_cons_self _ _)
        have hlt := uvCount_cons_lt hn hv
        have hle := uvCount_cons_le env.notes n.uuid visited
        have hmulle : uvCount env.notes (n.uuid :: visited) * (env.notes.length + 1) ≤
            uvCount env.notes visited * (env.notes.length + 1) := Nat.mul_le_mul_right _ hle
        have hmr : ∀ c2 : Nat, ∃ outR, G3.renderListF env format incl fuel rest ind
            (n.uuid :: visited) c2 = some outR := by
          intro c2
          refine ih rest ind (n.uuid :: visited) c2
            (fun x hx => hsub x (List.mem_cons_of_mem _ hx)) ?_
          simp only [List.length_cons] at hm
          omega
        have hchild : ∀ c2 : Nat, ∃ outC, (if incl then
            match noteIdOf n with
            | none => some (([], c2) : List String × Nat)
            | some pid =>
              G3.renderListF env format incl fuel
                (jsSort nameLe ((getFilteredNotes env.notes ("r/parent/" ++ pid) []).filter
                  (fun c => c.tags.any (fun t => sStarts "project/" t))))
                (ind + 1) (n.uuid :: visited) c2
          else some (([], c2) : List String × Nat)) = some outC := by
          intro c2
          cases hincl : incl with
          | false => exact ⟨([], c2), by simp⟩
          | true =>
            subst hincl
            cases hnid : noteIdOf n with
            | none => exact ⟨([], c2), by simp [hnid]⟩
            | some pid =>
              have hsubc : ∀ c ∈ (jsSort nameLe ((getFilteredNotes env.notes ("r/parent/" ++ pid) []).filter
                  (fun c => c.tags.any (fun t => sStarts "project/" t)))),
                  c ∈ env.notes := by
                intro c hc
                rw [mem_jsSort] at hc
                exact mem_of_mem_getFilteredNotes (List.mem_of_mem_filter hc)
              have hlenc : ((jsSort nameLe ((getFilteredNotes env.notes ("r/parent/" ++ pid) []).filter
                  (fun c => c.tags.any (fun t => sStarts "project/" t))))).length ≤ env.notes.length := by
                rw [length_jsSort]
                exact le_trans (List.length_filter_le _ _) (length_getFilteredNotes_le _ _ _)
              have hmulstep : (uvCount env.notes (n.uuid :: visited) + 1) *
                  (env.notes.length + 1) ≤
                  uvCount env.notes visited * (env.notes.length + 1) :=
                Nat.mul_le_mul_right _ hlt
              have hmc : (jsSort nameLe ((getFilteredNotes env.notes ("r/parent/" ++ pid) []).filter
                  (fun c => c.tags.any (fun t => sStarts "project/" t)))).length +
                  uvCount env.notes (n.uuid :: visited) * (env.notes.length + 1) < fuel := by
                simp only [List.length_cons] at hm
                rw [Nat.succ_mul] at hmulstep
                omega
              obtain ⟨outC, houtC⟩ := ih _ (ind + 1) (n.uuid :: visited) c2 hsubc hmc
              exact ⟨outC, by simp only [if_true, hnid]; exact houtC⟩
        simp only [G3.renderListF, if_neg hv]
        split
        · next heq =>
          obtain ⟨outC, houtC⟩ := hchild
            (if format = "weeklyReview" then G3.weeklyChunks env n.uuid ind counter
              else (([], counter) : List String × Nat)).2
          rw [houtC] at heq
          exact absurd heq (by simp)
        · next childOut c2 heq =>
          obtain ⟨outR, houtR⟩ := hmr c2
          split
          · next heq2 =>
            rw [houtR] at heq2
            exact absurd heq2 (by simp)
          · next out c3 heq2 => exact ⟨_, rfl⟩

def c1A : NoteRec := ⟨"uuid-A", "Alpha", ["project/active", "note-id/A1", "r/parent/B1"], ""⟩

def c1B : NoteRec := ⟨"uuid-B", "Beta", ["project/active", "note-id/B1", "r/parent/A1"], ""⟩

def c1env : AppState := [c1A, c1B]

def c1renv : Renv := ⟨c1env, fun _ => none, fun _ => []⟩

theorem renderRootsF_total_of_fuel (env : Renv) (format : String) (incl : Bool) :
    ∀ fuel roots ind counter, (∀ n ∈ roots, n ∈ env.notes) →
    1 + uvCount env.notes [] * (env.notes.length + 1) < fuel →
    ∃ out, G3.renderRootsF env format incl fuel roots ind counter = some out := by
  intro fuel roots
  induction roots with
  | nil => exact fun ind counter _ _ => ⟨([], counter), rfl⟩
  | cons p ps ihr =>
    intro ind counter hsub hfuel
    have hone : ∃ out, G3.renderListF env format incl fuel [p] ind [] counter = some out :=
      renderListF_total_of_fuel env format incl fuel [p] ind [] counter
        (by intro x hx; simp only [List.mem_singleton] at hx; subst hx
            exact hsub _ (List.mem_cons_self _ _)) (by simpa using hfuel)
    simp only [G3.renderRootsF]
    split
    · next heq =>
      obtain ⟨out1, hout1⟩ := hone
      rw [hout1] at heq
      exact absurd heq (by simp)
    · next cs c1 heq =>
      obtain ⟨outR, houtR⟩ := ihr ind c1 (fun x hx => hsub x (List.mem_cons_of_mem _ hx)) hfuel
      split
      · next heq2 =>
        rw [houtR] at heq2
        exact absurd heq2 (by simp)
      · next csR c2 heq2 => exact ⟨_, rfl⟩

theorem bnlF_skip (env : AppState) (incl : Bool) (fmt : NoteRec → String) (fuel : Nat)
    (n : NoteRec) (rest : List NoteRec) (ind : Nat) (visited : List String)
    (h : visited.contains n.uuid = true) :
    P0.bnlF env incl fmt (fuel + 1) (n :: rest) ind visited =
      P0.bnlF env incl fmt fuel rest ind visited := by
  simp only [P0.bnlF, if_pos h]

theorem renderListF_skip (env : Renv) (format : String) (incl : Bool) (fuel : Nat)
    (n : NoteRec) (rest : List NoteRec) (ind : Nat) (visited : List String) (counter : Nat)
    (h : visited.contains n.uuid = true) :
    G3.renderListF env format incl (fuel + 1) (n :: rest) ind visited counter =
      G3.renderListF env format incl fuel rest ind visited counter := by
  simp only [G3.renderListF, if_pos h]

/-- **C1.** Both revisions of the nested renderer terminate on every store,
including cyclic `r/parent` configurations: whenever the fuel exceeds the
work-list length plus (unvisited store notes) * (store size + 1) the
recursion returns a result (the visited set strictly shrinks the unvisited
count on every descent, each descent receiving a clone of the visited set
extended with the note itself, so it cannot recurse forever); a note whose
identifier is already in the visited set is skipped without rendering; and
on the claim's concrete two-note cycle (Alpha parent of Beta, Beta parent
of Alpha) both renderers produce each note at most once per branch:
Alpha, its child Beta, then root Beta whose child Alpha is suppressed. -/
theorem c1_nested_render_cycle_safe :
    (∀ (env : AppState) (incl : Bool) (fmt : NoteRec → String) fuel notes ind visited,
      (∀ n ∈ notes, n ∈ env) →
      notes.length + uvCount env visited * (env.length + 1) < fuel →
      ∃ out, P0.bnlF env incl fmt fuel notes ind visited = some out) ∧
    (∀ (env : Renv) (format : String) (incl : Bool) fuel notes ind visited counter,
      (∀ n ∈ notes, n ∈ env.notes) →
      notes.length + uvCount env.notes visited * (env.notes.length + 1) < fuel →
      ∃ out, G3.renderListF env format incl fuel notes ind visited counter = some out) ∧
    (∀ (env : Renv) (format : String) (incl : Bool) fuel roots ind counter,
      (∀ n ∈ roots, n ∈ env.notes) →
      1 + uvCount env.notes [] * (env.notes.length + 1) < fuel →
      ∃ out, G3.renderRootsF env format incl fuel roots ind counter = some out) ∧
    (∀ env incl fmt fuel n rest ind visited, visited.contains n.uuid = true →
      P0.bnlF env incl fmt (fuel + 1) (n :: rest) ind visited =
        P0.bnlF env incl fmt fuel rest ind visited) ∧
    (∀ env format incl fuel n rest ind visited counter, visited.contains n.uuid = true →
      G3.renderListF env format incl (fuel + 1) (n :: rest) ind visited counter =
        G3.renderListF env format incl fuel rest ind visited counter) ∧
    P0.bnlF c1env true P0.plainLabel 10 [c1A, c1B] 0 [] =
      some ["- [Alpha](https://www.amplenote.com/notes/uuid-A)",
        "    - [Beta](https://www.amplenote.com/notes/uuid-B)",
        "- [Beta](https://www.amplenote.com/notes/uuid-B)"] ∧
    G3.renderListF c1renv "x" true 10 [c1A, c1B] 0 [] 1 =
      some (["- [Alpha](https://www.amplenote.com/notes/uuid-A)",
        "    - [Beta](https://www.amplenote.com/notes/uuid-B)",
        "- [Beta](https://www.amplenote.com/notes/uuid-B)"], 1) :=
  ⟨fun env incl fmt fuel notes ind visited => bnlF_total_of_fuel env incl fmt fuel notes ind visited,
   fun env format incl fuel notes ind visited counter =>
     renderListF_total_of_fuel env format incl fuel notes ind visited counter,
   fun env format incl fuel roots ind counter =>
     renderRootsF_total_of_fuel env format incl fuel roots ind counter,
   fun env incl fmt fuel n rest ind visited h => bnlF_skip env incl fmt fuel n rest ind visited h,
   fun env format incl fuel n rest ind visited counter h =>
     renderListF_skip env format incl fuel n rest ind visited counter h,
   by decide, by decide⟩

theorem c1_nested_render_cycle_safe_witness :
    (∃ out, P0.bnlF c1env true P0.plainLabel 10 [c1A, c1B] 0 [] = some out) ∧
    (∃ out, G3.renderListF c1renv "x" true 10 [c1A, c1B] 0 [] 1 = some out) ∧
    (∃ out, G3.renderRootsF c1renv "x" true 10 [c1A, c1B] 1 1 = some out) ∧
    P0.bnlF c1env true P0.plainLabel (3 + 1) (c1A :: [c1B]) 0 ["uuid-A"] =
      P0.bnlF c1env true P0.plainLabel 3 [c1B] 0 ["uuid-A"] :=
  ⟨c1_nested_render_cycle_safe.1 c1env true P0.plainLabel 10 [c1A, c1B] 0 []
      (by decide) (by decide),
   c1_nested_render_cycle_safe.2.1 c1renv "x" true 10 [c1A, c1B] 0 [] 1
      (by decide) (by decide),
   c1_nested_render_cycle_safe.2.2.1 c1renv "x" true 10 [c1A, c1B] 1 1
      (by decide) (by decide),
   c1_nested_render_cycle_safe.2.2.2.1 c1env true P0.plainLabel 3 c1A [c1B] 0 ["uuid-A"]
      (by decide)⟩

theorem strLtB_asymm : ∀ as bs, strLtB as bs = true → strLtB bs as = true → False := by
  intro as
  induction as with
  | nil => intro bs h1 h2; cases bs <;> simp [strLtB] at h1 h2
  | cons a as ih =>
    intro bs h1 h2
    cases bs with
    | nil => simp [strLtB] at h1
    | cons b bs =>
      simp only [strLtB, Bool.or_eq_true, Bool.and_eq_true, beq_iff_eq,
        decide_eq_true_eq] at h1 h2
      rcases h1 with h1 | ⟨h1e, h1r⟩
      · rcases h2 with h2 | ⟨h2e, h2r⟩
        · omega
        · omega
      · rcases h2 with h2 | ⟨h2e, h2r⟩
        · omega
        · exact ih bs h1r h2r

theorem strLtB_trans : ∀ as bs cs, strLtB as bs = true → strLtB bs cs = true →
    strLtB as cs = true := by
  intro as
  induction as with
  | nil =>
    intro bs cs h1 h2
    cases bs with
    | nil => simp [strLtB] at h1
    | cons b bs =>
      cases cs with
      | nil => simp [strLtB] at h2
      | cons c cs => simp [strLtB]
  | cons a as ih =>
    intro bs cs h1 h2
    cases bs with
    | nil => simp [strLtB] at h1
    | cons b bs =>
      cases cs with
      | nil => simp [strLtB] at h2
      | cons c cs =>
        simp only [strLtB, Bool.or_eq_true, Bool.and_eq_true, beq_iff_eq,
          decide_eq_true_eq] at h1 h2 ⊢
        rcases h1 with h1 | ⟨h1e, h1r⟩
        · rcases h2 with h2 | ⟨h2e, h2r⟩
          · left; omega
          · left; omega
        · rcases h2 with h2 | ⟨h2e, h2r⟩
          · left; omega
          · right; exact ⟨by omega, ih bs cs h1r h2r⟩

theorem strLtB_trichot : ∀ as bs, strLtB as bs = true ∨ as = bs ∨ strLtB bs as = true := by
  intro as
  induction as with
  | nil =>
    intro bs
    cases bs with
    | nil => right; left; rfl
    | cons b bs => left; simp [strLtB]
  | cons a as ih =>
    intro bs
    cases bs with
    | nil => right; right; simp [strLtB]
    | cons b bs =>
      by_cases hab : a.toNat < b.toNat
      · left
        simp only [strLtB, Bool.or_eq_true, decide_eq_true_eq]
        left
        exact hab
      · by_cases hba : b.toNat < a.toNat
        · right; right
          simp only [strLtB, Bool.or_eq_true, decide_eq_true_eq]
          left
          exact hba
        · have he : a = b := Char.ext (UInt32.toNat.inj (show Char.toNat a = Char.toNat b by omega))
          subst he
          rcases ih bs with h | h | h
          · left
            simp [strLtB, h]
          · right; left; rw [h]
          · right; right
            simp [strLtB, h]

theorem strLeB_total : ∀ a b : String, strLeB a b = true ∨ strLeB b a = true := by
  intro a b
  unfold strLeB
  by_cases h1 : strLtB b.data a.data = true
  · right
    by_cases h2 : strLtB a.data b.data = true
    · exact absurd (strLtB_asymm _ _ h2 h1) (by simp)
    · simp [h2]
  · left
    simp [h1]

theorem strLeB_trans : ∀ a b c : String, strLeB a b = true → strLeB b c = true →
    strLeB a c = true := by
  intro a b c hab hbc
  unfold strLeB at hab hbc ⊢
  simp only [Bool.not_eq_true'] at hab hbc ⊢
  by_contra hca
  simp only [Bool.not_eq_false] at hca
  rcases strLtB_trichot a.data b.data with h | h | h
  · have := strLtB_trans _ _ _ hca h
    rw [this] at hbc
    simp at hbc
  · rw [h] at hca
    rw [hca] at hbc
    simp at hbc
  · rw [h] at hab
    simp at hab

theorem sStarts_dash_of_space {s : String} (h : s.data.head? = some ' ') :
    sStarts "- " s = false := by
  unfold sStarts
  cases hd : s.data with
  | nil => rfl
  | cons c cs =>
    rw [hd] at h
    simp only [List.head?_cons, Option.some.injEq] at h
    subst h
    rfl

theorem append_space_of {a : String} (t : String) (h : a.data.head? = some ' ') :
    (a ++ t).data.head? = some ' ' := by
  rw [String.data_append]
  cases hd : a.data with
  | nil => rw [hd] at h; simp at h
  | cons c cs =>
    rw [hd] at h
    simp only [List.head?_cons, Option.some.injEq] at h
    subst h
    rfl

theorem indent_space_of {s : String} (ind : Nat) (h : s.data.head? = some ' ') :
    (indentStr ind ++ s).data.head? = some ' ' := by
  rw [String.data_append]
  unfold indentStr
  cases hn : 4 * ind with
  | zero => exact h
  | succ m =>
    show (List.replicate (m + 1) ' ' ++ s.data).head? = some ' '
    simp [List.replicate_succ]

theorem indent_pos_space (s : String) {ind : Nat} (h : 1 ≤ ind) :
    (indentStr ind ++ s).data.head? = some ' ' := by
  rw [String.data_append]
  unfold indentStr
  cases hn : 4 * ind with
  | zero => omega
  | succ m =>
    show (List.replicate (m + 1) ' ' ++ s.data).head? = some ' '
    simp [List.replicate_succ]

theorem weeklyChunks_no_heading (env : Renv) (uuid : String) (ind counter : Nat) :
    ∀ l ∈ (G3.weeklyChunks env uuid ind counter).1, sStarts "- " l = false := by
  intro l hl
  unfold G3.weeklyChunks at hl
  by_cases hr : (env.rawTasks uuid).isEmpty = true
  · rw [if_pos hr] at hl
    simp only [List.mem_cons, List.mem_singleton, List.not_mem_nil, or_false] at hl
    rcases hl with hl | hl | hl
    · subst hl
      cases hj : env.lastJot uuid with
      | none => simp only [hj]; exact sStarts_dash_of_space (indent_space_of ind rfl)
      | some j =>
        simp only [hj]
        apply sStarts_dash_of_space
        apply append_space_of
        apply append_space_of
        apply append_space_of
        apply append_space_of
        apply indent_space_of
        rfl
    · subst hl
      exact sStarts_dash_of_space (indent_space_of ind rfl)
    · subst hl
      rfl
  · rw [if_neg hr] at hl
    simp only [List.mem_cons, List.mem_append, List.mem_map, List.mem_singleton] at hl
    rcases hl with hl | hl | hl
    · subst hl
      cases hj : env.lastJot uuid with
      | none => simp only [hj]; exact sStarts_dash_of_space (indent_space_of ind rfl)
      | some j =>
        simp only [hj]
        apply sStarts_dash_of_space
        apply append_space_of
        apply append_space_of
        apply append_space_of
        apply append_space_of
        apply indent_space_of
        rfl
    · subst hl
      exact sStarts_dash_of_space (indent_space_of ind rfl)
    · rcases hl with ⟨s, hs, hl⟩ | hl | hl
      · subst hl
        apply sStarts_dash_of_space
        apply append_space_of
        apply indent_space_of
        rfl
      · subst hl
        rfl
      · simp at hl

theorem renderListF_no_heading (env : Renv) (format : String) (incl : Bool) :
    ∀ fuel notes ind visited counter res, 1 ≤ ind →
    G3.renderListF env format incl fuel notes ind visited counter = some res →
    ∀ l ∈ res.1, sStarts "- " l = false := by
  intro fuel
  induction fuel with
  | zero =>
    intro notes ind visited counter res hind h
    exact absurd h (by simp [G3.renderListF])
  | succ fuel ih =>
    intro notes ind visited counter res hind h
    match notes with
    | [] =>
      simp only [G3.renderListF] at h
      rw [Option.some.injEq] at h
      subst h
      intro l hl
      simp at hl
    | n :: rest =>
      by_cases hv : visited.contains n.uuid = true
      · simp only [G3.renderListF, if_pos hv] at h
        exact ih rest ind visited counter res hind h
      · simp only [G3.renderListF, if_neg hv] at h
        split at h
        · exact absurd h (by simp)
        · next childOut c2 heq =>
          split at h
          · exact absurd h (by simp)
          · next out2 c3 heq2 =>
            rw [Option.some.injEq] at h
            subst h
            intro l hl
            simp only [List.mem_append, List.mem_cons] at hl
            rcases hl with (hl | hl) | hl
            · subst hl
              apply sStarts_dash_of_space
              apply append_space_of
              apply append_space_of
              apply append_space_of
              apply append_space_of
              exact indent_pos_space _ hind
            · rcases hl with hl | hl
              · by_cases hf : format = "weeklyReview"
                · rw [if_pos hf] at hl
                  exact weeklyChunks_no_heading env n.uuid ind counter l hl
                · rw [if_neg hf] at hl
                  simp at hl
              · split at heq
                · next hincl =>
                  split at heq
                  · next hnid =>
                    rw [Option.some.injEq, Prod.mk.injEq] at heq
                    rw [← heq.1] at hl
                    simp at hl
                  · next pid hnid =>
                    exact ih _ (ind + 1) (n.uuid :: visited) _ (childOut, c2)
                      (by omega) heq l hl
                · next hincl =>
                  rw [Option.some.injEq, Prod.mk.injEq] at heq
                  rw [← heq.1] at hl
                  simp at hl
            · exact ih rest ind (n.uuid :: visited) c2 (out2, c3) hind heq2 l hl

theorem renderRootsF_no_heading (env : Renv) (format : String) (incl : Bool) :
    ∀ fuel roots ind counter res, 1 ≤ ind →
    G3.renderRootsF env format incl fuel roots ind counter = some res →
    ∀ l ∈ res.1, sStarts "- " l = false := by
  intro fuel roots
  induction roots with
  | nil =>
    intro ind counter res hind h
    simp only [G3.renderRootsF] at h
    rw [Option.some.injEq] at h
    subst h
    intro l hl
    simp at hl
  | cons p ps ihr =>
    intro ind counter res hind h
    simp only [G3.renderRootsF] at h
    split at h
    · exact absurd h (by simp)
    · next cs c1 heq =>
      split at h
      · exact absurd h (by simp)
      · next csR c2 heq2 =>
        rw [Option.some.injEq] at h
        subst h
        intro l hl
        rcases List.mem_append.1 hl with hl | hl
        · exact renderListF_no_heading env format incl fuel [p] ind [] counter
            (cs, c1) hind heq l hl
        · exact ihr ind c1 (csR, c2) hind heq2 l hl

theorem buildFullF_headings (env : Renv) (baseNotes : AppState) (format : String)
    (incl scbd : Bool) (fuel : Nat) :
    ∀ cat counter out,
    G3.buildFullF env baseNotes format incl scbd fuel cat counter = some out →
    out.filter (fun l => sStarts "- " l) = cat.map (fun p => "- " ++ p.2) := by
  intro cat
  induction cat with
  | nil =>
    intro counter out h
    simp only [G3.buildFullF] at h
    rw [Option.some.injEq] at h
    subst h
    rfl
  | cons st restSt ihc =>
    intro counter out h
    obtain ⟨tag, label⟩ := st
    simp only [G3.buildFullF] at h
    split at h
    · split at h
      · exact absurd h (by simp)
      · next out2 heq =>
        rw [Option.some.injEq] at h
        subst h
        simp only [List.filter_cons]
        rw [if_pos (by exact sStarts_append "- " label)]
        rw [if_neg (by simp; rfl)]
        rw [if_neg (by simp; rfl)]
        simp only [List.map_cons]
        rw [ihc counter out2 heq]
    · split at h
      · exact absurd h (by simp)
      · next cs c1 heq =>
        split at h
        · exact absurd h (by simp)
        · next out2 heq2 =>
          rw [Option.some.injEq] at h
          subst h
          simp only [List.filter_cons, List.filter_append]
          rw [if_pos (by exact sStarts_append "- " label)]
          have hcs : cs.filter (fun l => sStarts "- " l) = [] := by
            rw [List.filter_eq_nil_iff]
            intro l hl
            have h3 := renderRootsF_no_heading env format incl fuel
              (G3.fullRoots baseNotes tag scbd) 1 counter (cs, c1) (le_refl 1) heq l hl
            simp [h3]
          rw [hcs]
          simp only [List.nil_append, List.map_cons]
          rw [if_neg (by decide)]
          simp only [List.filter_nil, List.nil_append]
          rw [ihc c1 out2 heq2]

theorem nameLe_total : ∀ a b : NoteRec, nameLe a b = true ∨ nameLe b a = true := by
  intro a b
  unfold nameLe
  exact strLeB_total a.name b.name

theorem nameLe_trans : ∀ a b c : NoteRec,
    nameLe a b = true → nameLe b c = true → nameLe a c = true := by
  intro a b c
  unfold nameLe
  exact strLeB_trans a.name b.name c.name

theorem fullRoots_sorted_by_name (baseNotes : AppState) (tag : String) (scbd : Bool)
    (h : ¬(tag = "project/completed" ∧ scbd = true)) :
    (G3.fullRoots baseNotes tag scbd).Pairwise (fun a b => nameLe a b = true) := by
  unfold G3.fullRoots
  rw [if_neg (by simpa [not_and] using fun h1 h2 => h ⟨h1, h2⟩)]
  exact pairwise_jsSort nameLe_total nameLe_trans _

theorem fullRoots_completed_sorted_by_date (baseNotes : AppState) :
    (G3.fullRoots baseNotes "project/completed" true).Pairwise
      (fun a b => strLeB (G3.dateKey b) (G3.dateKey a) = true) := by
  unfold G3.fullRoots
  rw [if_pos (by simp)]
  refine pairwise_jsSort ?_ ?_ _
  · intro a b
    rcases strLeB_total (G3.dateKey b) (G3.dateKey a) with h | h
    · left; exact h
    · right; exact h
  · intro a b c hab hbc
    exact strLeB_trans _ _ _ hbc hab

theorem g3_flatRoots_sorted_by_name (baseNotes : AppState) :
    (G3.flatRoots baseNotes).Pairwise (fun a b => nameLe a b = true) :=
  pairwise_jsSort nameLe_total nameLe_trans _

theorem p0_flatLe_total (scbd : Bool) : ∀ a b : NoteRec,
    P0.flatLe scbd a b = true ∨ P0.flatLe scbd b a = true := by
  intro a b
  unfold P0.flatLe
  cases scbd with
  | false => simpa using nameLe_total a b
  | true =>
    simp only [if_true]
    exact strLeB_total _ _
  
theorem p0_flatLe_trans (scbd : Bool) : ∀ a b c : NoteRec,
    P0.flatLe scbd a b = true → P0.flatLe scbd b c = true → P0.flatLe scbd a c = true := by
  intro a b c
  unfold P0.flatLe
  cases scbd with
  | false => simpa using nameLe_trans a b c
  | true =>
    simp only [if_true]
    intro hab hbc
    exact strLeB_trans _ _ _ hbc hab

theorem p0_flatRoots_sorted (baseNotes : List NoteRec) (ipf scbd : Bool) :
    (P0.flatRoots baseNotes ipf scbd).Pairwise (fun a b => P0.flatLe scbd a b = true) :=
  pairwise_jsSort (p0_flatLe_total scbd) (p0_flatLe_trans scbd) _

def c2renv : Renv := ⟨[], fun _ => none, fun _ => []⟩

def c2bbb : NoteRec := ⟨"uuid-bbb", "bbb", ["project/active"], ""⟩

def c2aaa : NoteRec := ⟨"uuid-aaa", "aaa", ["project/active"], ""⟩

theorem bnlF_no_heading (env : AppState) (incl : Bool) (fmt : NoteRec → String) :
    ∀ fuel notes ind visited out, 1 ≤ ind →
    P0.bnlF env incl fmt fuel notes ind visited = some out →
    ∀ l ∈ out, sStarts "- " l = false := by
  intro fuel
  induction fuel with
  | zero =>
    intro notes ind visited out hind h
    exact absurd h (by simp [P0.bnlF])
  | succ fuel ih =>
    intro notes ind visited out hind h
    match notes with
    | [] =>
      simp only [P0.bnlF] at h
      rw [Option.some.injEq] at h
      subst h
      intro l hl
      simp at hl
    | n :: rest =>
      by_cases hv : visited.contains n.uuid = true
      · simp only [P0.bnlF, if_pos hv] at h
        exact ih rest ind visited out hind h
      · simp only [P0.bnlF, if_neg hv] at h
        split at h
        · split at h
          · split at h
            · exact absurd h (by simp)
            · next out2 heq =>
              rw [Option.some.injEq] at h
              subst h
              intro l hl
              rcases List.mem_cons.1 hl with hl | hl
              · subst hl
                apply sStarts_dash_of_space
                apply append_space_of
                exact indent_pos_space _ hind
              · exact ih rest ind _ out2 hind heq l hl
          · next nid hnid =>
            split at h
            · exact absurd h (by simp)
            · next childOut heqC =>
              split at h
              · exact absurd h (by simp)
              · next out2 heqR =>
                rw [Option.some.injEq] at h
                subst h
                intro l hl
                rcases List.mem_cons.1 hl with hl | hl
                · subst hl
                  apply sStarts_dash_of_space
                  apply append_space_of
                  exact indent_pos_space _ hind
                · rcases List.mem_append.1 hl with hl | hl
                  · exact ih _ (ind + 1) _ childOut (by omega) heqC l hl
                  · exact ih rest ind _ out2 hind heqR l hl
        · split at h
          · exact absurd h (by simp)
          · next out2 heq =>
            rw [Option.some.injEq] at h
            subst h
            intro l hl
            rcases List.mem_cons.1 hl with hl | hl
            · subst hl
              apply sStarts_dash_of_space
              apply append_space_of
              exact indent_pos_space _ hind
            · exact ih rest ind _ out2 hind heq l hl

theorem p0_buildFullLoop_headings (env : AppState) (incl scbd : Bool) (fuel : Nat)
    (slr : List NoteRec) : ∀ cat out,
    P0.buildFullLoop env incl scbd fuel slr cat = some out →
    out.filter (fun l => sStarts "- " l) = cat.map (fun p => "- " ++ p.2) := by
  intro cat
  induction cat with
  | nil =>
    intro out h
    simp only [P0.buildFullLoop] at h
    rw [Option.some.injEq] at h
    subst h
    rfl
  | cons st restSt ihc =>
    intro out h
    obtain ⟨tag, label⟩ := st
    simp only [P0.buildFullLoop] at h
    split at h
    · split at h
      · exact absurd h (by simp)
      · next out2 heq =>
        rw [Option.some.injEq] at h
        subst h
        simp only [List.filter_cons]
        rw [if_pos (by exact sStarts_append "- " label)]
        rw [if_neg (by simp; rfl)]
        rw [if_neg (by simp; rfl)]
        simp only [List.map_cons]
        rw [ihc out2 heq]
    · split at h
      · exact absurd h (by simp)
      · next cs heqC =>
        split at h
        · exact absurd h (by simp)
        · next out2 heqR =>
          rw [Option.some.injEq] at h
          subst h
          simp only [List.filter_cons, List.filter_append]
          rw [if_pos (by exact sStarts_append "- " label)]
          have hcs : cs.filter (fun l => sStarts "- " l) = [] := by
            rw [List.filter_eq_nil_iff]
            intro l hl
            have h3 := bnlF_no_heading env incl P0.formatProjectLabel fuel
              (P0.fullRoots slr tag scbd) 1 [] cs (le_refl 1) heqC l hl
            simp [h3]
          rw [hcs]
          simp only [List.nil_append, List.map_cons]
          rw [if_neg (by decide)]
          simp only [List.filter_nil, List.nil_append]
          rw [ihc out2 heqR]

theorem getTopAncestor_cycle : ∀ fuel,
    P0.getTopAncestorF c1env [c1A, c1B] fuel c1A = none ∧
    P0.getTopAncestorF c1env [c1A, c1B] fuel c1B = none := by
  intro fuel
  induction fuel with
  | zero => exact ⟨rfl, rfl⟩
  | succ fuel ih =>
    constructor
    · have hstep : P0.getTopAncestorF c1env [c1A, c1B] (fuel + 1) c1A =
          P0.getTopAncestorF c1env [c1A, c1B] fuel c1B := rfl
      rw [hstep]
      exact ih.2
    · have hstep : P0.getTopAncestorF c1env [c1A, c1B] (fuel + 1) c1B =
          P0.getTopAncestorF c1env [c1A, c1B] fuel c1A := rfl
      rw [hstep]
      exact ih.1

theorem p0_secondLevelRoots_cycle (fuel : Nat) :
    P0.secondLevelRoots c1env [c1A, c1B] fuel = none := by
  show (match (match P0.getTopAncestorF c1env [c1A, c1B] fuel c1A with
      | none => none
      | some top => some (P0.mapSet [] top)) with
    | none => none
    | some m =>
      match P0.getTopAncestorF c1env [c1A, c1B] fuel c1B with
      | none => none
      | some top => some (P0.mapSet m top)) = none
  rw [(getTopAncestor_cycle fuel).1]

theorem p0_buildFull_cycle (fuel : Nat) (incl scbd : Bool) :
    P0.buildFull c1env [c1A, c1B] incl scbd fuel = none := by
  unfold P0.buildFull
  rw [p0_secondLevelRoots_cycle fuel]

theorem p0_fullRoots_sorted_by_name (slr : List NoteRec) (tag : String) (scbd : Bool)
    (h : ¬(tag = "project/completed" ∧ scbd = true)) :
    (P0.fullRoots slr tag scbd).Pairwise (fun a b => nameLe a b = true) := by
  unfold P0.fullRoots
  rw [if_neg (by simpa [not_and] using fun h1 h2 => h ⟨h1, h2⟩)]
  exact pairwise_jsSort nameLe_total nameLe_trans _

theorem p0_fullRoots_completed_sorted_by_date (slr : List NoteRec) :
    (P0.fullRoots slr "project/completed" true).Pairwise
      (fun a b => strLeB (P0.dateKey b) (P0.dateKey a) = true) := by
  unfold P0.fullRoots
  rw [if_pos (by simp)]
  refine pairwise_jsSort ?_ ?_ _
  · intro a b
    rcases strLeB_total (P0.dateKey b) (P0.dateKey a) with h | h
    · left; exact h
    · right; exact h
  · intro a b c hab hbc
    exact strLeB_trans _ _ _ hbc hab

/-- **C2 counterexample.** In the `part_000` revision flat mode sorts the
whole root set with the completion-date comparator whenever
`sortCompletedByDate` is set (and its default there is `true`): two
projects without completion tags keep store order instead of being
alphabetised, so "in flat mode across the whole root set roots are sorted
alphabetically by title" fails for that revision. -/
theorem c2_counterexample :
    P0.flatRoots [c2bbb, c2aaa] false true = [c2bbb, c2aaa] ∧
      ¬ (P0.flatRoots [c2bbb, c2aaa] false true).Pairwise
        (fun a b => nameLe a b = true) := by
  constructor
  · decide
  · decide

/-- **C2 (amended).** Full mode emits exactly the eight status headings in
catalog order in BOTH revisions — every line of a rendered bucket at depth
1 is space-indented, so the `- `-headed output lines are precisely the
headings — with `*No matching projects*` under an empty heading, and
bucket roots sorted by title except the completed bucket under
`sortCompletedByDate`, which sorts by completion date descending.  The
caveats: `part_000`'s full mode promotes roots with `getTopAncestor`, an
unguarded `while (true)` parent walk, so on a cyclic `r/parent`
configuration it never returns (none at every fuel) where `gtdv3.js`
terminates; and in flat mode the whole root set is sorted alphabetically
only in `gtdv3.js` — `part_000`'s flat mode sorts it with its `flatLe`
comparator, completion-date descending when `sortCompletedByDate` is set
(its default), title order only when it is unset. -/
theorem c2_project_list_amended :
    (∀ (env : Renv) (baseNotes : AppState) (format : String) (incl scbd : Bool) fuel out,
      G3.buildFull env baseNotes format incl scbd fuel = some out →
      out.filter (fun l => sStarts "- " l) =
        ["- Focus Projects", "- Active Projects", "- Tracking Projects",
         "- On Hold Projects", "- Future Projects", "- Someday Projects",
         "- Completed Projects", "- Canceled Projects"]) ∧
    G3.buildFull c2renv [] "x" true true 5 =
      some ["- Focus Projects", "    - *No matching projects*", "",
        "- Active Projects", "    - *No matching projects*", "",
        "- Tracking Projects", "    - *No matching projects*", "",
        "- On Hold Projects", "    - *No matching projects*", "",
        "- Future Projects", "    - *No matching projects*", "",
        "- Someday Projects", "    - *No matching projects*", "",
        "- Completed Projects", "    - *No matching projects*", "",
        "- Canceled Projects", "    - *No matching projects*", ""] ∧
    (∀ (baseNotes : AppState) (tag : String) (scbd : Bool),
      ¬(tag = "project/completed" ∧ scbd = true) →
      (G3.fullRoots baseNotes tag scbd).Pairwise (fun a b => nameLe a b = true)) ∧
    (∀ baseNotes : AppState, (G3.fullRoots baseNotes "project/completed" true).Pairwise
      (fun a b => strLeB (G3.dateKey b) (G3.dateKey a) = true)) ∧
    (∀ baseNotes : AppState, (G3.flatRoots baseNotes).Pairwise
      (fun a b => nameLe a b = true)) ∧
    (∀ (baseNotes : List NoteRec) (ipf scbd : Bool),
      (P0.flatRoots baseNotes ipf scbd).Pairwise
        (fun a b => P0.flatLe scbd a b = true)) ∧
    (∀ (baseNotes : List NoteRec) (ipf : Bool),
      (P0.flatRoots baseNotes ipf false).Pairwise
        (fun a b => nameLe a b = true)) ∧
    (∀ (env : AppState) (baseNotes : List NoteRec) (incl scbd : Bool) fuel out,
      P0.buildFull env baseNotes incl scbd fuel = some out →
      out.filter (fun l => sStarts "- " l) =
        ["- Focus Projects", "- Active Projects", "- Tracking Projects",
         "- On Hold Projects", "- Future Projects", "- Someday Projects",
         "- Completed Projects", "- Canceled Projects"]) ∧
    P0.buildFull [] [] true true 0 =
      some ["- Focus Projects", "    - *No matching projects*", "",
        "- Active Projects", "    - *No matching projects*", "",
        "- Tracking Projects", "    - *No matching projects*", "",
        "- On Hold Projects", "    - *No matching projects*", "",
        "- Future Projects", "    - *No matching projects*", "",
        "- Someday Projects", "    - *No matching projects*", "",
        "- Completed Projects", "    - *No matching projects*", "",
        "- Canceled Projects", "    - *No matching projects*", ""] ∧
    (∀ (slr : List NoteRec) (tag : String) (scbd : Bool),
      ¬(tag = "project/completed" ∧ scbd = true) →
      (P0.fullRoots slr tag scbd).Pairwise (fun a b => nameLe a b = true)) ∧
    (∀ slr : List NoteRec, (P0.fullRoots slr "project/completed" true).Pairwise
      (fun a b => strLeB (P0.dateKey b) (P0.dateKey a) = true)) ∧
    (∀ (fuel : Nat) (incl scbd : Bool),
      P0.buildFull c1env [c1A, c1B] incl scbd fuel = none) := by
  refine ⟨?_, by decide, fullRoots_sorted_by_name,
    fullRoots_completed_sorted_by_date, g3_flatRoots_sorted_by_name,
    p0_flatRoots_sorted, ?_, ?_, by decide, p0_fullRoots_sorted_by_name,
    p0_fullRoots_completed_sorted_by_date, ?_⟩
  · intro env baseNotes format incl scbd fuel out h
    have h2 := buildFullF_headings env baseNotes format incl scbd fuel
      G3.statusCatalog 1 out h
    rw [h2]
    rfl
  · intro baseNotes ipf
    exact p0_flatRoots_sorted baseNotes ipf false
  · intro env baseNotes incl scbd fuel out h
    unfold P0.buildFull at h
    split at h
    · exact absurd h (by simp)
    · next slr heq =>
      have h2 := p0_buildFullLoop_headings env incl scbd fuel slr P0.statusCatalog out h
      rw [h2]
      rfl
  · intro fuel incl scbd
    exact p0_buildFull_cycle fuel incl scbd

theorem c2_project_list_amended_witness :
    (["- Focus Projects", "    - *No matching projects*", "",
      "- Active Projects", "    - *No matching projects*", "",
      "- Tracking Projects", "    - *No matching projects*", "",
      "- On Hold Projects", "    - *No matching projects*", "",
      "- Future Projects", "    - *No matching projects*", "",
      "- Someday Projects", "    - *No matching projects*", "",
      "- Completed Projects", "    - *No matching projects*", "",
      "- Canceled Projects", "    - *No matching projects*", ""].filter
        (fun l => sStarts "- " l) =
      ["- Focus Projects", "- Active Projects", "- Tracking Projects",
       "- On Hold Projects", "- Future Projects", "- Someday Projects",
       "- Completed Projects", "- Canceled Projects"]) ∧
    (G3.fullRoots [c2bbb, c2aaa] "project/active" true).Pairwise
      (fun a b => nameLe a b = true) ∧
    (["- Focus Projects", "    - *No matching projects*", "",
      "- Active Projects", "    - *No matching projects*", "",
      "- Tracking Projects", "    - *No matching projects*", "",
      "- On Hold Projects", "    - *No matching projects*", "",
      "- Future Projects", "    - *No matching projects*", "",
      "- Someday Projects", "    - *No matching projects*", "",
      "- Completed Projects", "    - *No matching projects*", "",
      "- Canceled Projects", "    - *No matching projects*", ""].filter
        (fun l => sStarts "- " l) =
      ["- Focus Projects", "- Active Projects", "- Tracking Projects",
       "- On Hold Projects", "- Future Projects", "- Someday Projects",
       "- Completed Projects", "- Canceled Projects"]) ∧
    (P0.fullRoots [c2bbb, c2aaa] "project/active" true).Pairwise
      (fun a b => nameLe a b = true) :=
  ⟨c2_project_list_amended.1 c2renv [] "x" true true 5 _
      c2_project_list_amended.2.1,
   c2_project_list_amended.2.2.1 [c2bbb, c2aaa] "project/active" true (by decide),
   c2_project_list_amended.2.2.2.2.2.2.2.1 [] [] true true 0 _
      c2_project_list_amended.2.2.2.2.2.2.2.2.1,
   c2_project_list_amended.2.2.2.2.2.2.2.2.2.1 [c2bbb, c2aaa] "project/active" true
      (by decide)⟩
